/-
Verification of the taxicab-map repository: a shallow embedding in Lean 4 of
the dense 2-D tile map (`src/dense_map/mod.rs`), the diamond-ring enumerator
(`src/dense_map/iters.rs`) and the action-field solver
(`src/dense_map/action_field.rs`), together with proofs and refutations of the
specification's claims about them.

Modelling conventions:
* Rust `isize` is modelled as `ℤ` and `usize` as `ℕ` (the repository never
  relies on machine-width overflow in the verified code paths).
* Rust `f64` action costs are modelled exactly: the solver is parametrized
  over an arbitrary linearly ordered additive commutative group `C` of
  costs (so every theorem covers `C = ℚ`, the exact model of the finite
  `f64` values the claims use).  The claims under study are structural
  (budget comparison, ordering, which arguments a callback gets) and do not
  concern rounding.  Concrete runs are evaluated at `C = ℤ`, where the
  kernel computes; the scenarios involved use integer costs only.
* `ndarray::Array2` is modelled by `Array2`: extents plus a total indexing
  function, with `get` guarded by the bounds check exactly as `Array2::get`.
* `BTreeMap<Point, f64>` is modelled by a strictly key-sorted association
  list: `pop_first` takes the head, `insert` is `insertSorted` (overwriting
  an existing binding, as `BTreeMap::insert` does).
* `isize::rem_euclid` is `Int.emod`.  In Rust `rem_euclid(0)` panics; the
  spec (§4.1) declares a zero extent with wrap enabled undefined and to be
  rejected by the caller, so theorems about maps in general carry the
  corresponding well-formedness hypothesis.
-/
import Mathlib

namespace TaxicabSpec

/-- Modelled from the spec: the repository's `point` module is not under
`src/` (only users of it are).  Spec §3: a Point is "a pair of signed
integers `(x, y)` in absolute coordinate space; totally ordered
lexicographically by `(x, y)`". -/
abbrev Point : Type := ℤ × ℤ

/-- Modelled from the spec: `direction/mod.rs` is not under `src/`.  Spec §3
and the match arms of `direction/display.rs` and `dense_map/mod.rs` give the
shape: "one of four variants: increase-X, decrease-X, increase-Y, decrease-Y
(conceptually X(±), Y(±))", with `X true` = east = increase-X. -/
inductive Direction : Type where
  | X : Bool → Direction
  | Y : Bool → Direction
deriving DecidableEq

/-- Modelled from the spec: `Direction::all()` (used by
`ActionFieldSolver::neighbors`) yields each of the four directions once
("up to 4, one per Direction", spec §4.4). -/
def Direction.all : List Direction := [.X true, .X false, .Y true, .Y false]

/-- Modelled from the spec: `Point::go` / `Direction.step` "offsets a point
by exactly one cell along the encoded axis/sign" (spec §3). -/
def Point.go (p : Point) (d : Direction) : Point :=
  match d with
  | .X true => (p.1 + 1, p.2)
  | .X false => (p.1 - 1, p.2)
  | .Y true => (p.1, p.2 + 1)
  | .Y false => (p.1, p.2 - 1)

/-- The strict lexicographic order on `Point` (spec §3), the `Ord` instance
`BTreeMap<Point, _>` sorts by. -/
def ptLt (a b : Point) : Prop := a.1 < b.1 ∨ (a.1 = b.1 ∧ a.2 < b.2)

instance (a b : Point) : Decidable (ptLt a b) := by unfold ptLt; infer_instance

/-- `ndarray::Array2<T>`: two extents and the cell contents, modelled as a
total function (cells outside `[0,w) × [0,h)` are junk never exposed:
`Array2.get` guards them away). -/
structure Array2 (α : Type) where
  w : ℕ
  h : ℕ
  data : ℕ → ℕ → α

/-- `Array2::get((i, j))`: `Some` exactly on in-range indices. -/
def Array2.get (a : Array2 α) (i j : ℕ) : Option α :=
  if i < a.w ∧ j < a.h then some (a.data i j) else none

/-- Writing one cell of an `Array2` (the effect of `Array2::get_mut` plus
assignment, and of one side of `mem::swap`). -/
def Array2.set (a : Array2 α) (i j : ℕ) (v : α) : Array2 α :=
  { a with data := fun p q => if p = i ∧ q = j then v else a.data p q }

/-- `Array2::from_shape_fn((w, h), |_| fill.clone())`. -/
def Array2.filled (w h : ℕ) (fill : α) : Array2 α := ⟨w, h, fun _ _ => fill⟩

/-- `TaxicabMap<T>` from `src/dense_map/mod.rs`. -/
structure TaxicabMap (α : Type) where
  dense : Array2 α
  cycle_x : Bool
  cycle_y : Bool
  origin_x : ℤ
  origin_y : ℤ

/-- `TaxicabMap::rectangle(width, height, fill)`. -/
def TaxicabMap.rectangle (width height : ℕ) (fill : α) : TaxicabMap α :=
  { dense := Array2.filled width height fill
    cycle_x := false, cycle_y := false, origin_x := 0, origin_y := 0 }

/-- `TaxicabMap::square(width, fill)`. -/
def TaxicabMap.square (width : ℕ) (fill : α) : TaxicabMap α :=
  TaxicabMap.rectangle width width fill

/-- The per-axis step of `absolute_to_relative` (`src/dense_map/mod.rs`
lines 158-169, identical on each axis): with wrap, reduce the offset `v`
with `rem_euclid`; without, fail outside `[0, e)`. -/
def axisIndex (c : Bool) (v e : ℤ) : Option ℤ :=
  if c then some (v.emod e) else if v < 0 ∨ e ≤ v then none else some v

/-- `absolute_to_relative` from `src/dense_map/mod.rs` lines 146-171:
subtract the origin, then apply the per-axis step to each axis (failing as
soon as one axis fails, as the early `return None` does); finally cast the
two non-negative results to `usize`. -/
def absolute_to_relative (x y ox oy w h : ℤ) (cx cy : Bool) :
    Option (ℕ × ℕ) :=
  match axisIndex cx (x - ox) w with
  | none => none
  | some x1 =>
    match axisIndex cy (y - oy) h with
    | none => none
    | some y1 => some (x1.toNat, y1.toNat)

/-- `relative_to_absolute` from `src/dense_map/mod.rs` lines 173-176. -/
def relative_to_absolute (x y : ℕ) (ox oy : ℤ) : ℤ × ℤ :=
  ((x : ℤ) + ox, (y : ℤ) + oy)

/-- The coordinate transform as `TaxicabMap`'s methods invoke it (with the
map's own origin, extents and wrap flags). -/
def TaxicabMap.a2r (m : TaxicabMap α) (x y : ℤ) : Option (ℕ × ℕ) :=
  absolute_to_relative x y m.origin_x m.origin_y
    (m.dense.w : ℤ) (m.dense.h : ℤ) m.cycle_x m.cycle_y

/-- `TaxicabMap::has_point`. -/
def TaxicabMap.has_point (m : TaxicabMap α) (x y : ℤ) : Bool :=
  (m.a2r x y).isSome

/-- `TaxicabMap::get_point` (lines 118-123). -/
def TaxicabMap.get_point (m : TaxicabMap α) (x y : ℤ) : Option α :=
  match m.a2r x y with
  | none => none
  | some (i, j) => m.dense.get i j

/-- `TaxicabMap::set_point` via `mut_point` (lines 125-139): locate the cell
through the coordinate transform and the storage bounds check; on success
overwrite it and return `true`, otherwise return `false` with the map
untouched.  The returned pair is (resulting map, returned Bool). -/
def TaxicabMap.set_point (m : TaxicabMap α) (x y : ℤ) (v : α) :
    TaxicabMap α × Bool :=
  match m.a2r x y with
  | none => (m, false)
  | some (i, j) =>
      if i < m.dense.w ∧ j < m.dense.h then
        ({ m with dense := m.dense.set i j v }, true)
      else (m, false)

/-- Spec §4.1's caller contract: a zero extent with wrap enabled is rejected
(in Rust `rem_euclid(0)` would panic). -/
def WellFormed (m : TaxicabMap α) : Prop :=
  (m.cycle_x = true → 0 < m.dense.w) ∧ (m.cycle_y = true → 0 < m.dense.h)

section CoordinateTransform

/-- A successful per-axis step with positive extent lands in `[0, e)`. -/
theorem axisIndex_bounds {c : Bool} {v e r : ℤ} (he : 0 < e)
    (hr : axisIndex c v e = some r) : 0 ≤ r ∧ r < e := by
  unfold axisIndex at hr
  rcases c with _ | _
  · rw [if_neg (by simp)] at hr
    split at hr
    · exact absurd hr (by simp)
    · rename_i hcond
      push_neg at hcond
      simp only [Option.some.injEq] at hr
      omega
  · rw [if_pos rfl] at hr
    simp only [Option.some.injEq] at hr
    have h0 : 0 ≤ v.emod e := Int.emod_nonneg v (by omega)
    have h1 : v.emod e < e := Int.emod_lt_of_pos v he
    omega

/-- The wrap branch of the per-axis step. -/
theorem axisIndex_true (v e : ℤ) : axisIndex true v e = some (v.emod e) :=
  rfl

/-- `rem_euclid` ignores added multiples of the modulus. -/
theorem emod_add_mul_self (a b c : ℤ) : (a + b * c).emod c = a.emod c :=
  Int.add_mul_emod_self

/-- `rem_euclid` by `1` is zero. -/
theorem emod_one (a : ℤ) : a.emod 1 = 0 := by
  show a % 1 = 0
  omega

/-- C5: with positive extents, a successful `absolute_to_relative` always
lands inside `[0, width) × [0, height)` (so the storage lookup cannot fail),
and with wrap enabled on both axes it succeeds on every input. -/
theorem c5_a2r_bounds_and_total (x y ox oy w h : ℤ) (cx cy : Bool)
    (hw : 0 < w) (hh : 0 < h) :
    (∀ i j, absolute_to_relative x y ox oy w h cx cy = some (i, j) →
        i < w.toNat ∧ j < h.toNat) ∧
    (cx = true → cy = true →
      ∃ i j, absolute_to_relative x y ox oy w h cx cy = some (i, j)) := by
  constructor
  · intro i j hij
    unfold absolute_to_relative at hij
    cases hx : axisIndex cx (x - ox) w with
    | none => rw [hx] at hij; exact absurd hij (by simp)
    | some x1 =>
      rw [hx] at hij
      cases hy : axisIndex cy (y - oy) h with
      | none => rw [hy] at hij; exact absurd hij (by simp)
      | some y1 =>
        rw [hy] at hij
        simp only [Option.some.injEq, Prod.mk.injEq] at hij
        obtain ⟨hbx1, hbx2⟩ := axisIndex_bounds hw hx
        obtain ⟨hby1, hby2⟩ := axisIndex_bounds hh hy
        omega
  · intro hcx hcy
    subst hcx; subst hcy
    exact ⟨_, _, rfl⟩

/-- Witness for C5 at `x=7, y=-3, origin (1,1), extents 4×5`, wrap on. -/
theorem c5_a2r_bounds_and_total_witness :
    (∀ i j, absolute_to_relative 7 (-3) 1 1 4 5 true true = some (i, j) →
        i < (4:ℤ).toNat ∧ j < (5:ℤ).toNat) ∧
    (true = true → true = true →
      ∃ i j, absolute_to_relative 7 (-3) 1 1 4 5 true true = some (i, j)) :=
  c5_a2r_bounds_and_total 7 (-3) 1 1 4 5 true true (by decide) (by decide)

/-- Spec concrete scenario 3's store: `wrap_x = true`, width 4, origin
`(0,0)` (height 1; cells hold their own x-index so cell identity is
observable). -/
def map4 : TaxicabMap ℕ :=
  { dense := ⟨4, 1, fun i _ => i⟩
    cycle_x := true, cycle_y := false, origin_x := 0, origin_y := 0 }

/-- C6: on a wrap-enabled axis, `absolute_to_relative` is invariant under
adding any integer multiple of the extent to that axis' input coordinate
(proved for arbitrary extents, in particular positive ones); and on the
scenario-3 store, `get_point(4,0)` and `get_point(0,0)` resolve to the
identical cell. -/
theorem c6_wrap_invariance (x y ox oy w h m : ℤ) :
    (∀ cy, absolute_to_relative (x + m * w) y ox oy w h true cy =
        absolute_to_relative x y ox oy w h true cy) ∧
    (∀ cx, absolute_to_relative x (y + m * h) ox oy w h cx true =
        absolute_to_relative x y ox oy w h cx true) ∧
    map4.a2r 4 0 = map4.a2r 0 0 ∧ map4.get_point 4 0 = map4.get_point 0 0 := by
  refine ⟨?_, ?_, by decide, by decide⟩
  · intro cy
    unfold absolute_to_relative
    have hx : axisIndex true (x + m * w - ox) w = axisIndex true (x - ox) w := by
      rw [axisIndex_true, axisIndex_true,
        show x + m * w - ox = x - ox + m * w from by ring, emod_add_mul_self]
    rw [hx]
  · intro cx
    unfold absolute_to_relative
    have hy : axisIndex true (y + m * h - oy) h = axisIndex true (y - oy) h := by
      rw [axisIndex_true, axisIndex_true,
        show y + m * h - oy = y - oy + m * h from by ring, emod_add_mul_self]
    rw [hy]

/-- C7: with wrap disabled on both axes, `relative_to_absolute` followed by
`absolute_to_relative` is the identity on every valid index, and every
absolute coordinate whose offset from the origin leaves `[0, extent)` on
some axis maps to `none`. -/
theorem c7_roundtrip_and_bounds (ox oy w h : ℤ) :
    (∀ i j : ℕ, (i : ℤ) < w → (j : ℤ) < h →
      absolute_to_relative (relative_to_absolute i j ox oy).1
        (relative_to_absolute i j ox oy).2 ox oy w h false false =
          some (i, j)) ∧
    (∀ x y : ℤ,
      (x - ox < 0 ∨ w ≤ x - ox ∨ y - oy < 0 ∨ h ≤ y - oy) →
      absolute_to_relative x y ox oy w h false false = none) := by
  have haxOk : ∀ v e : ℤ, 0 ≤ v → v < e → axisIndex false v e = some v := by
    intro v e h0 h1
    unfold axisIndex
    rw [if_neg (by simp), if_neg (by omega)]
  have haxBad : ∀ v e : ℤ, v < 0 ∨ e ≤ v → axisIndex false v e = none := by
    intro v e hbad
    unfold axisIndex
    rw [if_neg (by simp), if_pos hbad]
  constructor
  · intro i j hi hj
    unfold relative_to_absolute absolute_to_relative
    have hx : (i : ℤ) + ox - ox = (i : ℤ) := by ring
    have hy : (j : ℤ) + oy - oy = (j : ℤ) := by ring
    rw [hx, hy, haxOk _ _ (by omega) hi, haxOk _ _ (by omega) hj]
    simp
  · intro x y hout
    unfold absolute_to_relative
    by_cases hxin : x - ox < 0 ∨ w ≤ x - ox
    · rw [haxBad _ _ hxin]
    · rw [haxOk _ _ (by omega) (by omega), haxBad _ _ (by omega)]

/-- Witness for C7: round trip at index `(2,1)` in a `4×3` store with origin
`(5,-2)`, and failure at `(20,0)`. -/
theorem c7_roundtrip_and_bounds_witness :
    ((2 : ℤ) < 4 ∧ (1 : ℤ) < 3 ∧
      absolute_to_relative (relative_to_absolute 2 1 5 (-2)).1
        (relative_to_absolute 2 1 5 (-2)).2 5 (-2) 4 3 false false =
          some (2, 1)) ∧
    (((20 : ℤ) - 5 < 0 ∨ (4:ℤ) ≤ 20 - 5 ∨ (0:ℤ) - (-2) < 0 ∨ (3:ℤ) ≤ 0 - (-2)) ∧
      absolute_to_relative 20 0 5 (-2) 4 3 false false = none) :=
  ⟨⟨by decide, by decide,
      (c7_roundtrip_and_bounds 5 (-2) 4 3).1 2 1 (by decide) (by decide)⟩,
    ⟨by decide,
      (c7_roundtrip_and_bounds 5 (-2) 4 3).2 20 0 (by decide)⟩⟩

/-- A successful per-axis step lands in `[0, e)`, given positive extent
whenever wrap engages `rem_euclid`. -/
theorem axisIndex_some_lt {c : Bool} {v e r : ℤ} (he : c = true → 0 < e)
    (hr : axisIndex c v e = some r) : 0 ≤ r ∧ r < e := by
  rcases c with _ | _
  · unfold axisIndex at hr
    rw [if_neg (by simp)] at hr
    split at hr
    · exact absurd hr (by simp)
    · rename_i hcond
      push_neg at hcond
      simp only [Option.some.injEq] at hr
      omega
  · exact axisIndex_bounds (he rfl) hr

/-- On a well-formed map, a successful coordinate transform lands inside the
storage extents. -/
theorem a2r_lt {m : TaxicabMap α} {x y : ℤ} {i j : ℕ}
    (hwf : WellFormed m) (hij : m.a2r x y = some (i, j)) :
    i < m.dense.w ∧ j < m.dense.h := by
  unfold TaxicabMap.a2r absolute_to_relative at hij
  cases hx : axisIndex m.cycle_x (x - m.origin_x) (m.dense.w : ℤ) with
  | none => rw [hx] at hij; exact absurd hij (by simp)
  | some x1 =>
    rw [hx] at hij
    cases hy : axisIndex m.cycle_y (y - m.origin_y) (m.dense.h : ℤ) with
    | none => rw [hy] at hij; exact absurd hij (by simp)
    | some y1 =>
      rw [hy] at hij
      simp only [Option.some.injEq, Prod.mk.injEq] at hij
      obtain ⟨hx0, hx1⟩ :=
        axisIndex_some_lt (fun hc => by exact_mod_cast hwf.1 hc) hx
      obtain ⟨hy0, hy1⟩ :=
        axisIndex_some_lt (fun hc => by exact_mod_cast hwf.2 hc) hy
      omega

end CoordinateTransform

section SetPoint

/-- C10: on a well-formed map, `set_point` on a coordinate with no storage
cell returns `false` and leaves the map (so every cell) unchanged; on a
coordinate that maps to cell `(i,j)` it returns `true`, writes the value to
exactly that cell and leaves every other cell, the extents, the origin and
the wrap flags unchanged. -/
theorem c10_set_point (m : TaxicabMap α) (x y : ℤ) (v : α)
    (hwf : WellFormed m) :
    (m.a2r x y = none → m.set_point x y v = (m, false)) ∧
    (∀ i j, m.a2r x y = some (i, j) →
      (m.set_point x y v).2 = true ∧
      (m.set_point x y v).1.cycle_x = m.cycle_x ∧
      (m.set_point x y v).1.cycle_y = m.cycle_y ∧
      (m.set_point x y v).1.origin_x = m.origin_x ∧
      (m.set_point x y v).1.origin_y = m.origin_y ∧
      (m.set_point x y v).1.dense.w = m.dense.w ∧
      (m.set_point x y v).1.dense.h = m.dense.h ∧
      (m.set_point x y v).1.dense.get i j = some v ∧
      ∀ a b : ℕ, ¬(a = i ∧ b = j) →
        (m.set_point x y v).1.dense.get a b = m.dense.get a b) := by
  constructor
  · intro hnone
    unfold TaxicabMap.set_point
    rw [hnone]
  · intro i j hsome
    have hb := a2r_lt hwf hsome
    unfold TaxicabMap.set_point
    rw [hsome]
    simp only [if_pos hb]
    refine ⟨by trivial, by trivial, by trivial, by trivial, by trivial,
      by trivial, by trivial, ?_, ?_⟩
    · unfold Array2.set Array2.get
      simp only [if_pos hb]
      simp
    · intro a b hne
      unfold Array2.set Array2.get
      simp only
      by_cases hab : a < m.dense.w ∧ b < m.dense.h
      · rw [if_pos hab, if_pos hab, if_neg hne]
      · rw [if_neg hab, if_neg hab]

/-- Witness for C10: a `2×2` rectangle of zeros (well-formed), writing `5`
at `(1,0)` succeeds and writing at `(9,9)` fails. -/
theorem c10_set_point_witness :
    (WellFormed (TaxicabMap.rectangle 2 2 (0 : ℕ)) ∧
      (TaxicabMap.rectangle 2 2 (0 : ℕ)).a2r 1 0 = some (1, 0) ∧
      ((TaxicabMap.rectangle 2 2 (0 : ℕ)).set_point 1 0 5).2 = true ∧
      ((TaxicabMap.rectangle 2 2 (0 : ℕ)).set_point 1 0 5).1.dense.get 1 0 =
        some 5) ∧
    ((TaxicabMap.rectangle 2 2 (0 : ℕ)).a2r 9 9 = none ∧
      (TaxicabMap.rectangle 2 2 (0 : ℕ)).set_point 9 9 5 =
        (TaxicabMap.rectangle 2 2 (0 : ℕ), false)) := by
  have hwf : WellFormed (TaxicabMap.rectangle 2 2 (0 : ℕ)) := by
    constructor <;> intro hc <;> simp [TaxicabMap.rectangle, Array2.filled]
  have h := c10_set_point (TaxicabMap.rectangle 2 2 (0 : ℕ)) 1 0 5 hwf
  have h9 := c10_set_point (TaxicabMap.rectangle 2 2 (0 : ℕ)) 9 9 5 hwf
  have ha : (TaxicabMap.rectangle 2 2 (0 : ℕ)).a2r 1 0 = some (1, 0) := by
    decide
  have hn : (TaxicabMap.rectangle 2 2 (0 : ℕ)).a2r 9 9 = none := by decide
  obtain ⟨ht, -, -, -, -, -, -, hg, -⟩ := h.2 1 0 ha
  exact ⟨⟨hwf, ha, ht, hg⟩, ⟨hn, h9.1 hn⟩⟩

end SetPoint

section Diamond

/-- The iterator state of `DiamondPoints` (`src/dense_map/iters.rs` lines
83-94): center, radius and a running index. -/
structure DiamondPoints where
  x : ℤ
  y : ℤ
  n : ℤ
  index : ℤ

/-- `DiamondPoints::new(x, y, n)` (lines 90-94). -/
def DiamondPoints.new (x y n : ℤ) : DiamondPoints := ⟨x, y, n, 0⟩

/-- `DiamondPoints::next` (lines 109-138): emit the point for the current
index (four edges of the diamond for `index < 4n`, the bare center when
`n = 0 ∧ index = 0`, nothing otherwise) and advance the index.  The
`let k = ...` offsets of the source are inlined. -/
def DiamondPoints.next (s : DiamondPoints) :
    Option (ℤ × ℤ) × DiamondPoints :=
  (if s.n = 0 ∧ s.index = 0 then some (s.x, s.y)
   else if s.index < s.n then some (s.x + s.n - s.index, s.y + s.index)
   else if s.index < 2 * s.n then
     some (s.x - (s.index - s.n), s.y + s.n - (s.index - s.n))
   else if s.index < 3 * s.n then
     some (s.x - s.n + (s.index - 2 * s.n), s.y - (s.index - 2 * s.n))
   else if s.index < 4 * s.n then
     some (s.x + (s.index - 3 * s.n), s.y - s.n + (s.index - 3 * s.n))
   else none,
   { s with index := s.index + 1 })

/-- Driving the iterator as a Rust `for`/`collect` does: call `next` until
the first `None` (fuel-indexed to make the recursion structural; every
claim supplies enough fuel). -/
def DiamondPoints.collect : DiamondPoints → ℕ → List (ℤ × ℤ)
  | _, 0 => []
  | s, fuel + 1 =>
    match s.next with
    | (none, _) => []
    | (some p, s') => p :: DiamondPoints.collect s' fuel

/-- Unfolding equation of `collect` at positive fuel. -/
theorem DiamondPoints.collect_succ (s : DiamondPoints) (fuel : ℕ) :
    DiamondPoints.collect s (fuel + 1) =
      match s.next with
      | (none, _) => []
      | (some p, s') => p :: DiamondPoints.collect s' fuel := rfl

/-- Past index `4n` (with `n ≥ 1`), `next` emits nothing. -/
theorem DiamondPoints.next_done (x y n i : ℤ) (hn : 1 ≤ n) (h4 : 4 * n ≤ i) :
    DiamondPoints.next ⟨x, y, n, i⟩ = (none, ⟨x, y, n, i + 1⟩) := by
  unfold DiamondPoints.next
  dsimp only
  rw [if_neg (by omega : ¬(n = 0 ∧ i = 0)), if_neg (by omega),
    if_neg (by omega), if_neg (by omega), if_neg (by omega)]

/-- The value `next` emits at index `t` of a radius-`n ≥ 1` ring (the four
`if` arms of the source, with the final arm's guard discharged by
`t < 4n`). -/
def diamondPt (x y n t : ℤ) : ℤ × ℤ :=
  if t < n then (x + n - t, y + t)
  else if t < 2 * n then (x - (t - n), y + n - (t - n))
  else if t < 3 * n then (x - n + (t - 2 * n), y - (t - 2 * n))
  else (x + (t - 3 * n), y - n + (t - 3 * n))

/-- First edge of the ring as the spec words it: "from `(x+n,y)` down-left
to `(x,y+n)`" (that endpoint excluded). -/
def edge1 (x y n : ℤ) : List (ℤ × ℤ) :=
  (List.range n.toNat).map fun (k : ℕ) => (x + n - (k : ℤ), y + (k : ℤ))

/-- Second edge: from `(x,y+n)` to `(x-n,y)` (excluded). -/
def edge2 (x y n : ℤ) : List (ℤ × ℤ) :=
  (List.range n.toNat).map fun (k : ℕ) => (x - (k : ℤ), y + n - (k : ℤ))

/-- Third edge: from `(x-n,y)` to `(x,y-n)` (excluded). -/
def edge3 (x y n : ℤ) : List (ℤ × ℤ) :=
  (List.range n.toNat).map fun (k : ℕ) => (x - n + (k : ℤ), y - (k : ℤ))

/-- Fourth edge: from `(x,y-n)` back toward (but not including)
`(x+n,y)`. -/
def edge4 (x y n : ℤ) : List (ℤ × ℤ) :=
  (List.range n.toNat).map fun (k : ℕ) => (x + (k : ℤ), y - n + (k : ℤ))

/-- The ring in the rotational order the spec describes (§4.3): start at
`(x+n,y)`, pass through `(x,y+n)`, `(x-n,y)`, `(x,y-n)`, stop short of the
start.  This is the spec-side refinement definition C8 compares the
iterator against. -/
def diamondSpecRing (x y n : ℤ) : List (ℤ × ℤ) :=
  edge1 x y n ++ (edge2 x y n ++ (edge3 x y n ++ edge4 x y n))

/-- Inside the ring (`0 ≤ i < 4n`, `n ≥ 1`), `next` emits `diamondPt` and
advances. -/
theorem DiamondPoints.next_mid (x y n i : ℤ) (hn : 1 ≤ n) (h0 : 0 ≤ i)
    (h4 : i < 4 * n) :
    DiamondPoints.next ⟨x, y, n, i⟩ =
      (some (diamondPt x y n i), ⟨x, y, n, i + 1⟩) := by
  unfold DiamondPoints.next diamondPt
  dsimp only
  rw [if_neg (by omega : ¬(n = 0 ∧ i = 0))]
  split_ifs <;> first | rfl | omega

/-- At index `4n` (`n ≥ 1`) the iterator is exhausted. -/
theorem DiamondPoints.collect_done (x y n i : ℤ) (hn : 1 ≤ n)
    (h4 : 4 * n ≤ i) (fuel : ℕ) :
    DiamondPoints.collect ⟨x, y, n, i⟩ fuel = [] := by
  cases fuel with
  | zero => rfl
  | succ f =>
    rw [DiamondPoints.collect_succ, DiamondPoints.next_done x y n i hn h4]

/-- Running the iterator from index `i` with `j = 4n - i` steps left yields
exactly the `diamondPt` values at indices `i, i+1, …, 4n-1`. -/
theorem DiamondPoints.collect_ring (x y n : ℤ) (hn : 1 ≤ n) :
    ∀ (j : ℕ) (i : ℤ) (fuel : ℕ), 0 ≤ i → i + j = 4 * n → j < fuel →
      DiamondPoints.collect ⟨x, y, n, i⟩ fuel =
        (List.range j).map (fun (k : ℕ) => diamondPt x y n (i + (k : ℤ))) := by
  intro j
  induction j with
  | zero =>
    intro i fuel h0 hij hf
    have hi : i = 4 * n := by omega
    subst hi
    simp [DiamondPoints.collect_done x y n _ hn le_rfl fuel]
  | succ j ih =>
    intro i fuel h0 hij hf
    cases fuel with
    | zero => omega
    | succ f =>
      have hstep := DiamondPoints.next_mid x y n i hn h0 (by omega)
      rw [DiamondPoints.collect_succ, hstep]
      show diamondPt x y n i ::
          DiamondPoints.collect ⟨x, y, n, i + 1⟩ f = _
      rw [ih (i + 1) f (by omega) (by omega) (by omega)]
      rw [List.range_succ_eq_map, List.map_cons, List.map_map]
      refine congrArg₂ _ (by norm_num) (List.map_congr_left ?_)
      intro k _
      simp only [Function.comp_apply]
      congr 1
      push_cast
      ring

/-- The iterator's output from index `0` is the spec's four edges in the
spec's order. -/
theorem ring_eq_spec (x y n : ℤ) (hn : 1 ≤ n) :
    (List.range (4 * n).toNat).map
        (fun (k : ℕ) => diamondPt x y n ((0 : ℤ) + (k : ℤ))) =
      diamondSpecRing x y n := by
  have h4 : (4 * n).toNat = n.toNat + (n.toNat + (n.toNat + n.toNat)) := by
    omega
  rw [h4, List.range_add, List.map_append, List.map_map,
    List.range_add, List.map_append, List.map_map,
    List.range_add, List.map_append, List.map_map]
  unfold diamondSpecRing edge1 edge2 edge3 edge4
  refine congrArg₂ _ ?_ (congrArg₂ _ ?_ (congrArg₂ _ ?_ ?_))
  · refine List.map_congr_left ?_
    intro k hk
    simp only [List.mem_range] at hk
    unfold diamondPt
    rw [if_pos (by omega)]
    simp only [Prod.mk.injEq]
    omega
  · refine List.map_congr_left ?_
    intro k hk
    simp only [List.mem_range] at hk
    simp only [Function.comp_apply]
    unfold diamondPt
    rw [if_neg (by omega), if_pos (by omega)]
    simp only [Prod.mk.injEq]
    omega
  · refine List.map_congr_left ?_
    intro k hk
    simp only [List.mem_range] at hk
    simp only [Function.comp_apply]
    unfold diamondPt
    rw [if_neg (by omega), if_neg (by omega), if_pos (by omega)]
    simp only [Prod.mk.injEq]
    omega
  · refine List.map_congr_left ?_
    intro k hk
    simp only [List.mem_range] at hk
    simp only [Function.comp_apply]
    unfold diamondPt
    rw [if_neg (by omega), if_neg (by omega), if_neg (by omega)]
    simp only [Prod.mk.injEq]
    omega

/-- The ring has `4n` entries. -/
theorem diamondSpecRing_length (x y n : ℤ) :
    (diamondSpecRing x y n).length = 4 * n.toNat := by
  simp only [diamondSpecRing, edge1, edge2, edge3, edge4,
    List.length_append, List.length_map, List.length_range]
  omega

/-- Every ring entry sits at taxicab distance exactly `n` from the
center. -/
theorem diamondSpecRing_dist (x y n : ℤ) (hn : 1 ≤ n) :
    ∀ p ∈ diamondSpecRing x y n,
      (p.1 - x).natAbs + (p.2 - y).natAbs = n.toNat := by
  intro p hp
  simp only [diamondSpecRing, List.mem_append, edge1, edge2, edge3, edge4,
    List.mem_map, List.mem_range] at hp
  rcases hp with ⟨k, hk, rfl⟩ | ⟨k, hk, rfl⟩ | ⟨k, hk, rfl⟩ | ⟨k, hk, rfl⟩ <;>
    (try dsimp only) <;> omega

/-- The `4n` ring entries are pairwise distinct. -/
theorem diamondSpecRing_nodup (x y n : ℤ) (hn : 1 ≤ n) :
    (diamondSpecRing x y n).Nodup := by
  have h1 : ∀ p ∈ edge1 x y n, 1 ≤ p.1 - x ∧ 0 ≤ p.2 - y := by
    intro p hp
    simp only [edge1, List.mem_map, List.mem_range] at hp
    obtain ⟨k, hk, rfl⟩ := hp
    dsimp only
    omega
  have h2 : ∀ p ∈ edge2 x y n, p.1 - x ≤ 0 ∧ 1 ≤ p.2 - y := by
    intro p hp
    simp only [edge2, List.mem_map, List.mem_range] at hp
    obtain ⟨k, hk, rfl⟩ := hp
    dsimp only
    omega
  have h3 : ∀ p ∈ edge3 x y n, p.1 - x ≤ -1 ∧ p.2 - y ≤ 0 := by
    intro p hp
    simp only [edge3, List.mem_map, List.mem_range] at hp
    obtain ⟨k, hk, rfl⟩ := hp
    dsimp only
    omega
  have h4 : ∀ p ∈ edge4 x y n, 0 ≤ p.1 - x ∧ p.2 - y ≤ -1 := by
    intro p hp
    simp only [edge4, List.mem_map, List.mem_range] at hp
    obtain ⟨k, hk, rfl⟩ := hp
    dsimp only
    omega
  have nd1 : (edge1 x y n).Nodup := by
    refine List.Nodup.map ?_ (List.nodup_range _)
    intro a b hab
    simp only [Prod.mk.injEq] at hab
    omega
  have nd2 : (edge2 x y n).Nodup := by
    refine List.Nodup.map ?_ (List.nodup_range _)
    intro a b hab
    simp only [Prod.mk.injEq] at hab
    omega
  have nd3 : (edge3 x y n).Nodup := by
    refine List.Nodup.map ?_ (List.nodup_range _)
    intro a b hab
    simp only [Prod.mk.injEq] at hab
    omega
  have nd4 : (edge4 x y n).Nodup := by
    refine List.Nodup.map ?_ (List.nodup_range _)
    intro a b hab
    simp only [Prod.mk.injEq] at hab
    omega
  unfold diamondSpecRing
  rw [List.nodup_append, List.nodup_append, List.nodup_append]
  refine ⟨nd1, ⟨nd2, ⟨nd3, nd4, ?_⟩, ?_⟩, ?_⟩
  · intro p hp3 hp4
    have := h3 p hp3
    have := h4 p hp4
    omega
  · intro p hp2 hp
    rcases List.mem_append.mp hp with hp3 | hp4
    · have := h2 p hp2
      have := h3 p hp3
      omega
    · have := h2 p hp2
      have := h4 p hp4
      omega
  · intro p hp1 hp
    rcases List.mem_append.mp hp with hp2 | hp'
    · have := h1 p hp1
      have := h2 p hp2
      omega
    · rcases List.mem_append.mp hp' with hp3 | hp4
      · have := h1 p hp1
        have := h3 p hp3
        omega
      · have := h1 p hp1
        have := h4 p hp4
        omega

/-- C8: running `DiamondPoints::new(x, y, n)` to exhaustion yields, for
`n ≥ 1`, exactly the spec's ring `diamondSpecRing` (four edges in
rotational order from `(x+n, y)` through `(x, y+n)`, `(x-n, y)`,
`(x, y-n)`, excluding the start on return), which has `4n` pairwise
distinct entries all at taxicab distance exactly `n` from the center; for
`n = 0` it yields exactly `[(x, y)]`. -/
theorem c8_diamond_ring (x y n : ℤ) (fuel : ℕ) (hn : 0 ≤ n)
    (hfuel : 4 * n.toNat + 2 ≤ fuel) :
    (n = 0 → DiamondPoints.collect (DiamondPoints.new x y n) fuel = [(x, y)]) ∧
    (1 ≤ n →
      DiamondPoints.collect (DiamondPoints.new x y n) fuel =
        diamondSpecRing x y n ∧
      (diamondSpecRing x y n).length = 4 * n.toNat ∧
      (diamondSpecRing x y n).Nodup ∧
      ∀ p ∈ diamondSpecRing x y n,
        (p.1 - x).natAbs + (p.2 - y).natAbs = n.toNat) := by
  constructor
  · intro h0
    subst h0
    obtain ⟨f, rfl⟩ : ∃ f, fuel = f + 2 := ⟨fuel - 2, by omega⟩
    have hfirst :
        DiamondPoints.next ⟨x, y, 0, 0⟩ = (some (x, y), ⟨x, y, 0, 0 + 1⟩) := by
      unfold DiamondPoints.next
      dsimp only
      rw [if_pos ⟨rfl, rfl⟩]
    have hsecond :
        DiamondPoints.next ⟨x, y, 0, 1⟩ = (none, ⟨x, y, 0, 1 + 1⟩) := by
      unfold DiamondPoints.next
      dsimp only
      rw [if_neg (by omega : ¬((0:ℤ) = 0 ∧ (1:ℤ) = 0)), if_neg (by omega),
        if_neg (by omega), if_neg (by omega), if_neg (by omega)]
    show DiamondPoints.collect ⟨x, y, 0, 0⟩ (f + 1 + 1) = [(x, y)]
    rw [DiamondPoints.collect_succ, hfirst]
    show (x, y) :: DiamondPoints.collect ⟨x, y, 0, 1⟩ (f + 1) = [(x, y)]
    rw [DiamondPoints.collect_succ, hsecond]
  · intro hn1
    refine ⟨?_, diamondSpecRing_length x y n,
      diamondSpecRing_nodup x y n hn1, diamondSpecRing_dist x y n hn1⟩
    have hrun := DiamondPoints.collect_ring x y n hn1 (4 * n).toNat 0 fuel
      le_rfl (by omega) (by omega)
    show DiamondPoints.collect ⟨x, y, n, 0⟩ fuel = diamondSpecRing x y n
    rw [hrun, ring_eq_spec x y n hn1]

/-- Witness for C8 at center `(0,0)`, radius `2`, fuel `11`. -/
theorem c8_diamond_ring_witness :
    (DiamondPoints.collect (DiamondPoints.new 0 0 2) 11 =
        diamondSpecRing 0 0 2 ∧
      (diamondSpecRing 0 0 2).length = 4 * (2:ℤ).toNat ∧
      (diamondSpecRing 0 0 2).Nodup ∧
      ∀ p ∈ diamondSpecRing 0 0 2,
        (p.1 - 0).natAbs + (p.2 - 0).natAbs = (2:ℤ).toNat) ∧
    DiamondPoints.collect (DiamondPoints.new 0 0 0) 11 = [(0, 0)] :=
  ⟨(c8_diamond_ring 0 0 2 11 (by decide) (by decide)).2 (by decide),
    (c8_diamond_ring 0 0 0 11 (by decide) (by decide)).1 rfl⟩

end Diamond

section Extend

/-- `(0..x).cartesian_product(0..y)` in itertools order (second component
fastest), the loop index list of `TaxicabMap::extend`. -/
def prodList (x y : ℕ) : List (ℕ × ℕ) :=
  (List.range x).flatMap fun i => (List.range y).map fun j => (i, j)

/-- `mem::swap(&mut new[[t]], &mut old[[s]])` acting on the pair
(new, old). -/
def swapStep (t s : ℕ × ℕ) (p : Array2 α × Array2 α) :
    Array2 α × Array2 α :=
  (p.1.set t.1 t.2 (p.2.data s.1 s.2), p.2.set s.1 s.2 (p.1.data t.1 t.2))

/-- One of `extend`'s four copy loops: for each source index `ij` of the old
array, swap old cell `ij` with new cell `t ij`. -/
def foldSwap (t : ℕ × ℕ → ℕ × ℕ) (st : Array2 α × Array2 α)
    (l : List (ℕ × ℕ)) : Array2 α × Array2 α :=
  l.foldl (fun p ij => swapStep (t ij) ij p) st

/-- `TaxicabMap::extend` (`src/dense_map/mod.rs` lines 35-66): allocate a
`fill`-initialized array one `size` larger along the direction's axis, run
the direction's swap loop (targets `(x+size,y)` for `X(true)`, `(x,y)` for
`X(false)`, `(x,y+size)` for `Y(true)`, `(x,y)` for `Y(false)`), and
replace `dense` with the new array.  Origin and wrap flags are not
touched. -/
def TaxicabMap.extend (m : TaxicabMap α) (d : Direction) (size : ℕ)
    (fill : α) : TaxicabMap α :=
  let x := m.dense.w
  let y := m.dense.h
  let wh : ℕ × ℕ := match d with
    | .X _ => (x + size, y)
    | .Y _ => (x, y + size)
  let init := Array2.filled wh.1 wh.2 fill
  let result := match d with
    | .X true => foldSwap (fun ij => (ij.1 + size, ij.2)) (init, m.dense)
        (prodList x y)
    | .X false => foldSwap (fun ij => (ij.1, ij.2)) (init, m.dense)
        (prodList x y)
    | .Y true => foldSwap (fun ij => (ij.1, ij.2 + size)) (init, m.dense)
        (prodList x y)
    | .Y false => foldSwap (fun ij => (ij.1, ij.2)) (init, m.dense)
        (prodList x y)
  { m with dense := result.1 }

theorem mem_prodList {x y : ℕ} {p : ℕ × ℕ} :
    p ∈ prodList x y ↔ p.1 < x ∧ p.2 < y := by
  unfold prodList
  rw [List.mem_flatMap]
  constructor
  · rintro ⟨i, hi, hp⟩
    rw [List.mem_map] at hp
    obtain ⟨j, hj, rfl⟩ := hp
    rw [List.mem_range] at hi
    rw [List.mem_range] at hj
    exact ⟨hi, hj⟩
  · rintro ⟨h1, h2⟩
    refine ⟨p.1, List.mem_range.mpr h1, ?_⟩
    rw [List.mem_map]
    exact ⟨p.2, List.mem_range.mpr h2, rfl⟩

theorem nodup_prodList (x y : ℕ) : (prodList x y).Nodup := by
  unfold prodList
  rw [List.nodup_flatMap]
  constructor
  · intro i _
    refine List.Nodup.map ?_ (List.nodup_range _)
    intro a b hab
    simpa using hab
  · refine List.Pairwise.imp ?_ (List.nodup_range x)
    intro a b hab p hpa hpb
    rw [List.mem_map] at hpa hpb
    obtain ⟨j1, -, rfl⟩ := hpa
    obtain ⟨j2, -, h⟩ := hpb
    exact hab (congrArg Prod.fst h).symm

/-- The swap loop never changes the new array's extents. -/
theorem foldSwap_dims (t : ℕ × ℕ → ℕ × ℕ) (l : List (ℕ × ℕ)) :
    ∀ st : Array2 α × Array2 α,
      (foldSwap t st l).1.w = st.1.w ∧ (foldSwap t st l).1.h = st.1.h := by
  induction l with
  | nil => intro st; exact ⟨rfl, rfl⟩
  | cons c rest ih =>
    intro st
    unfold foldSwap at ih ⊢
    rw [List.foldl_cons]
    exact ih (swapStep (t c) c st)

/-- Cells of the new array outside the loop's target set keep their initial
(`fill`) contents. -/
theorem foldSwap_frame (t : ℕ × ℕ → ℕ × ℕ) (l : List (ℕ × ℕ)) :
    ∀ (st : Array2 α × Array2 α) (q : ℕ × ℕ), (∀ p ∈ l, t p ≠ q) →
      (foldSwap t st l).1.data q.1 q.2 = st.1.data q.1 q.2 := by
  induction l with
  | nil => intro st q _; rfl
  | cons c rest ih =>
    intro st q hq
    unfold foldSwap at ih ⊢
    rw [List.foldl_cons]
    have hrec := ih (swapStep (t c) c st) q
      (fun p hp => hq p (List.mem_cons_of_mem _ hp))
    rw [hrec]
    unfold swapStep Array2.set
    dsimp only
    rw [if_neg ?hne]
    case hne =>
      intro hcon
      exact hq c (List.mem_cons_self c rest)
        (Prod.ext_iff.mpr ⟨hcon.1.symm, hcon.2.symm⟩)

/-- Each old cell's value ends up at its loop target in the new array. -/
theorem foldSwap_moved (t : ℕ × ℕ → ℕ × ℕ) (hinj : Function.Injective t)
    (l : List (ℕ × ℕ)) :
    ∀ st : Array2 α × Array2 α, l.Nodup → ∀ p0 ∈ l,
      (foldSwap t st l).1.data (t p0).1 (t p0).2 = st.2.data p0.1 p0.2 := by
  induction l with
  | nil => intro st _ p0 hp0; cases hp0
  | cons c rest ih =>
    intro st hnd p0 hp0
    unfold foldSwap at ih ⊢
    rw [List.foldl_cons]
    rcases List.mem_cons.mp hp0 with rfl | hmem
    · have hnoq : ∀ p ∈ rest, t p ≠ t p0 := by
        intro p hp heq
        have hpp : p = p0 := hinj heq
        subst hpp
        exact (List.nodup_cons.mp hnd).1 hp
      have hframe := foldSwap_frame t rest (swapStep (t p0) p0 st) (t p0) hnoq
      unfold foldSwap at hframe
      rw [hframe]
      unfold swapStep Array2.set
      dsimp only
      rw [if_pos ⟨rfl, rfl⟩]
    · have hrec := ih (swapStep (t c) c st) (List.nodup_cons.mp hnd).2 p0 hmem
      rw [hrec]
      unfold swapStep Array2.set
      dsimp only
      rw [if_neg ?hne]
      case hne =>
        intro hcon
        have : p0 = c := Prod.ext_iff.mpr ⟨hcon.1, hcon.2⟩
        subst this
        exact (List.nodup_cons.mp hnd).1 hmem

/-- C9: `extend` grows the storage by `size` cells along the direction's
axis, leaves origin and wrap flags unchanged, preserves every existing cell
value (shifted to higher indices for the positive directions `X(true)` /
`Y(true)`, in place for the negative ones), and fills the `size`-wide band
of fresh cells (at the low-index edge for positive directions, at the
high-index edge for negative ones) with `fill`. -/
theorem c9_extend (m : TaxicabMap α) (size : ℕ) (fill : α) :
    (∀ d, (m.extend d size fill).origin_x = m.origin_x ∧
      (m.extend d size fill).origin_y = m.origin_y ∧
      (m.extend d size fill).cycle_x = m.cycle_x ∧
      (m.extend d size fill).cycle_y = m.cycle_y) ∧
    ((m.extend (.X true) size fill).dense.w = m.dense.w + size ∧
      (m.extend (.X true) size fill).dense.h = m.dense.h ∧
      (∀ i j, i < m.dense.w → j < m.dense.h →
        (m.extend (.X true) size fill).dense.data (i + size) j =
          m.dense.data i j) ∧
      (∀ i j, i < size → j < m.dense.h →
        (m.extend (.X true) size fill).dense.data i j = fill)) ∧
    ((m.extend (.X false) size fill).dense.w = m.dense.w + size ∧
      (m.extend (.X false) size fill).dense.h = m.dense.h ∧
      (∀ i j, i < m.dense.w → j < m.dense.h →
        (m.extend (.X false) size fill).dense.data i j = m.dense.data i j) ∧
      (∀ i j, m.dense.w ≤ i → i < m.dense.w + size → j < m.dense.h →
        (m.extend (.X false) size fill).dense.data i j = fill)) ∧
    ((m.extend (.Y true) size fill).dense.w = m.dense.w ∧
      (m.extend (.Y true) size fill).dense.h = m.dense.h + size ∧
      (∀ i j, i < m.dense.w → j < m.dense.h →
        (m.extend (.Y true) size fill).dense.data i (j + size) =
          m.dense.data i j) ∧
      (∀ i j, i < m.dense.w → j < size →
        (m.extend (.Y true) size fill).dense.data i j = fill)) ∧
    ((m.extend (.Y false) size fill).dense.w = m.dense.w ∧
      (m.extend (.Y false) size fill).dense.h = m.dense.h + size ∧
      (∀ i j, i < m.dense.w → j < m.dense.h →
        (m.extend (.Y false) size fill).dense.data i j = m.dense.data i j) ∧
      (∀ i j, i < m.dense.w → m.dense.h ≤ j → j < m.dense.h + size →
        (m.extend (.Y false) size fill).dense.data i j = fill)) := by
  have hinj1 : Function.Injective (fun ij : ℕ × ℕ => (ij.1 + size, ij.2)) := by
    intro a b hab
    simp only [Prod.mk.injEq] at hab
    exact Prod.ext_iff.mpr ⟨by omega, hab.2⟩
  have hinj2 : Function.Injective (fun ij : ℕ × ℕ => (ij.1, ij.2)) := by
    intro a b hab
    simp only [Prod.mk.injEq] at hab
    exact Prod.ext_iff.mpr hab
  have hinj3 : Function.Injective (fun ij : ℕ × ℕ => (ij.1, ij.2 + size)) := by
    intro a b hab
    simp only [Prod.mk.injEq] at hab
    exact Prod.ext_iff.mpr ⟨hab.1, by omega⟩
  have hXt : (m.extend (.X true) size fill).dense =
      (foldSwap (fun ij => (ij.1 + size, ij.2))
        (Array2.filled (m.dense.w + size) m.dense.h fill, m.dense)
        (prodList m.dense.w m.dense.h)).1 := rfl
  have hXf : (m.extend (.X false) size fill).dense =
      (foldSwap (fun ij => (ij.1, ij.2))
        (Array2.filled (m.dense.w + size) m.dense.h fill, m.dense)
        (prodList m.dense.w m.dense.h)).1 := rfl
  have hYt : (m.extend (.Y true) size fill).dense =
      (foldSwap (fun ij => (ij.1, ij.2 + size))
        (Array2.filled m.dense.w (m.dense.h + size) fill, m.dense)
        (prodList m.dense.w m.dense.h)).1 := rfl
  have hYf : (m.extend (.Y false) size fill).dense =
      (foldSwap (fun ij => (ij.1, ij.2))
        (Array2.filled m.dense.w (m.dense.h + size) fill, m.dense)
        (prodList m.dense.w m.dense.h)).1 := rfl
  refine ⟨fun d => ⟨rfl, rfl, rfl, rfl⟩, ?_, ?_, ?_, ?_⟩
  · refine ⟨?_, ?_, ?_, ?_⟩
    · rw [hXt]; exact (foldSwap_dims _ _ _).1
    · rw [hXt]; exact (foldSwap_dims _ _ _).2
    · intro i j hi hj
      rw [hXt]
      exact foldSwap_moved _ hinj1 _ _ (nodup_prodList _ _) (i, j)
        (mem_prodList.mpr ⟨hi, hj⟩)
    · intro i j hi hj
      rw [hXt]
      refine foldSwap_frame _ _ _ (i, j) ?_
      intro p hp heq
      have := congrArg Prod.fst heq
      dsimp only at this
      omega
  · refine ⟨?_, ?_, ?_, ?_⟩
    · rw [hXf]; exact (foldSwap_dims _ _ _).1
    · rw [hXf]; exact (foldSwap_dims _ _ _).2
    · intro i j hi hj
      rw [hXf]
      exact foldSwap_moved _ hinj2 _ _ (nodup_prodList _ _) (i, j)
        (mem_prodList.mpr ⟨hi, hj⟩)
    · intro i j hwi hi hj
      rw [hXf]
      refine foldSwap_frame _ _ _ (i, j) ?_
      intro p hp heq
      have h1 := congrArg Prod.fst heq
      have h2 := (mem_prodList.mp hp).1
      dsimp only at h1
      omega
  · refine ⟨?_, ?_, ?_, ?_⟩
    · rw [hYt]; exact (foldSwap_dims _ _ _).1
    · rw [hYt]; exact (foldSwap_dims _ _ _).2
    · intro i j hi hj
      rw [hYt]
      exact foldSwap_moved _ hinj3 _ _ (nodup_prodList _ _) (i, j)
        (mem_prodList.mpr ⟨hi, hj⟩)
    · intro i j hi hj
      rw [hYt]
      refine foldSwap_frame _ _ _ (i, j) ?_
      intro p hp heq
      have := congrArg Prod.snd heq
      dsimp only at this
      omega
  · refine ⟨?_, ?_, ?_, ?_⟩
    · rw [hYf]; exact (foldSwap_dims _ _ _).1
    · rw [hYf]; exact (foldSwap_dims _ _ _).2
    · intro i j hi hj
      rw [hYf]
      exact foldSwap_moved _ hinj2 _ _ (nodup_prodList _ _) (i, j)
        (mem_prodList.mpr ⟨hi, hj⟩)
    · intro i j hi hwj hj
      rw [hYf]
      refine foldSwap_frame _ _ _ (i, j) ?_
      intro p hp heq
      have h1 := congrArg Prod.snd heq
      have h2 := (mem_prodList.mp hp).2
      dsimp only at h1
      omega

/-- The `2×1` store holding its own x-index in each cell, used as the C9
witness input. -/
def mapW : TaxicabMap ℕ :=
  { dense := ⟨2, 1, fun i _ => i⟩
    cycle_x := false, cycle_y := false, origin_x := 0, origin_y := 0 }

/-- Witness for C9: extending the `2×1` store east by one column with fill
`9` keeps the origin, yields a `3×1` store whose old cells moved one column
up and whose fresh column is `9`. -/
theorem c9_extend_witness :
    ((mapW.extend (.X true) 1 9).origin_x = mapW.origin_x ∧
      (mapW.extend (.X true) 1 9).dense.w = mapW.dense.w + 1 ∧
      (mapW.extend (.X true) 1 9).dense.h = mapW.dense.h) ∧
    ((0 < mapW.dense.w ∧ 0 < mapW.dense.h ∧
        (mapW.extend (.X true) 1 9).dense.data (0 + 1) 0 =
          mapW.dense.data 0 0) ∧
      (1 < mapW.dense.w ∧
        (mapW.extend (.X true) 1 9).dense.data (1 + 1) 0 =
          mapW.dense.data 1 0) ∧
      (0 < 1 ∧ (mapW.extend (.X true) 1 9).dense.data 0 0 = 9)) :=
  ⟨⟨(c9_extend mapW 1 9).1 (.X true) |>.1,
      (c9_extend mapW 1 9).2.1.1, (c9_extend mapW 1 9).2.1.2.1⟩,
    ⟨by decide, by decide,
        (c9_extend mapW 1 9).2.1.2.2.1 0 0 (by decide) (by decide)⟩,
      ⟨by decide, (c9_extend mapW 1 9).2.1.2.2.1 1 0 (by decide) (by decide)⟩,
      ⟨by decide, (c9_extend mapW 1 9).2.1.2.2.2 0 0 (by decide) (by decide)⟩⟩

end Extend

section Solver

variable {C : Type} [LinearOrderedAddCommGroup C]

/-- `BTreeMap::get`-style lookup in the association-list model. -/
def lookupKey : List (Point × C) → Point → Option C
  | [], _ => none
  | e :: t, k => if e.1 = k then some e.2 else lookupKey t k

/-- `BTreeMap::contains_key` in the association-list model. -/
def containsKey (l : List (Point × C)) (k : Point) : Bool :=
  (lookupKey l k).isSome

/-- `BTreeMap::insert` in the association-list model: place the binding at
its lexicographic position, replacing an existing binding for the same
key. -/
def insertSorted : List (Point × C) → Point → C → List (Point × C)
  | [], k, v => [(k, v)]
  | e :: t, k, v =>
    if ptLt k e.1 then (k, v) :: e :: t
    else if k = e.1 then (k, v) :: t
    else e :: insertSorted t k v

/-- `ActionFieldSolver` (`src/dense_map/action_field.rs` lines 4-11).  The
Rust field `open` is a Lean keyword, hence `opn`.  Both maps are the sorted
association lists standing in for `BTreeMap<Point, f64>`; `C` is the cost
domain standing in for `f64`. -/
structure ActionFieldSolver (C α : Type) where
  map : TaxicabMap α
  opn : List (Point × C)
  close : List (Point × C)
  passable : Point → α → Bool
  action_cost : Point → α → C
  action_points : C

/-- `TaxicabMap::action_field` (lines 27-38): open set primed with the
start at cost `0`, empty closed set, always-true passability, zero cost. -/
def TaxicabMap.action_field (m : TaxicabMap α) (start : Point) (action : C) :
    ActionFieldSolver C α :=
  { map := m, opn := [(start, 0)], close := []
    passable := fun _ _ => true, action_cost := fun _ _ => 0
    action_points := action }

/-- `ActionFieldSolver::with_passable` (lines 42-48). -/
def ActionFieldSolver.with_passable (s : ActionFieldSolver C α)
    (p : Point → α → Bool) : ActionFieldSolver C α :=
  { s with passable := p }

/-- `ActionFieldSolver::with_cost` (lines 49-55). -/
def ActionFieldSolver.with_cost (s : ActionFieldSolver C α)
    (c : Point → α → C) : ActionFieldSolver C α :=
  { s with action_cost := c }

/-- `TaxicabMap::get_point` taking a `Point`, as `action_field.rs` calls
it. -/
def TaxicabMap.get_pointP (m : TaxicabMap α) (p : Point) : Option α :=
  m.get_point p.1 p.2

/-- `ActionFieldSolver::neighbors` (lines 58-76): for each direction, step
there; skip when the map has no such point, when the passability callback
rejects it, or when it is already closed; otherwise record it with the cost
callback's value.  Note the source calls the cost callback as
`(self.action_cost)(point, value)` — the *current* point's coordinate with
the *neighbor's* stored value. -/
def ActionFieldSolver.neighbors (s : ActionFieldSolver C α) (p : Point) :
    List (Point × C) :=
  Direction.all.filterMap fun d =>
    let key := p.go d
    match s.map.get_pointP key with
    | none => none
    | some value =>
      if !(s.passable key value) then none
      else if containsKey s.close key then none
      else some (key, s.action_cost p value)

/-- The `while let Some(...) = open.pop_first()` loop of
`ActionFieldSolver::solve` (lines 77-91), fuel-indexed: pop the least open
entry, insert every neighbor whose accumulated cost stays within
`action_points` (overwriting any previous entry), move the popped entry to
the closed set.  Returns the final closed set, or `none` when fuel runs out
before the open set empties. -/
def ActionFieldSolver.solveLoop : ActionFieldSolver C α → ℕ →
    Option (List (Point × C))
  | _, 0 => none
  | s, fuel + 1 =>
    match s.opn with
    | [] => some s.close
    | (p, c) :: rest =>
      let ns := s.neighbors p
      let newOpen := ns.foldl
        (fun acc e =>
          if s.action_points < c + e.2 then acc
          else insertSorted acc e.1 (c + e.2)) rest
      ActionFieldSolver.solveLoop
        { s with opn := newOpen, close := insertSorted s.close p c } fuel

/-- The final `sorted_unstable_by(partial_cmp on the cost)` of `solve` —
on the exact cost model a genuine ascending sort by first component (ties
in arbitrary order, as the spec allows). -/
def sortByCost (l : List (C × Point)) : List (C × Point) :=
  List.insertionSort (fun a b => a.1 ≤ b.1) l

/-- `ActionFieldSolver::solve`: run the loop, then emit the closed set as
`(cost, point)` pairs sorted ascending by cost. -/
def ActionFieldSolver.solve (s : ActionFieldSolver C α) (fuel : ℕ) :
    Option (List (C × Point)) :=
  (s.solveLoop fuel).map fun close =>
    sortByCost (close.map fun e => (e.2, e.1))

/-- Unfolding equation of `solveLoop` at positive fuel. -/
theorem ActionFieldSolver.solveLoop_succ (s : ActionFieldSolver C α)
    (fuel : ℕ) :
    s.solveLoop (fuel + 1) =
      match s.opn with
      | [] => some s.close
      | (p, c) :: rest =>
        ActionFieldSolver.solveLoop
          { s with
            opn := (s.neighbors p).foldl
              (fun acc e =>
                if s.action_points < c + e.2 then acc
                else insertSorted acc e.1 (c + e.2)) rest
            close := insertSorted s.close p c } fuel := rfl

/-- Soundness of `neighbors`: every produced entry is a one-step neighbor
that exists on the map, passes the passability callback, is not closed, and
carries cost `action_cost(current point, neighbor value)`. -/
theorem neighbors_sound (s : ActionFieldSolver C α) (p k : Point) (c : C)
    (h : (k, c) ∈ s.neighbors p) :
    ∃ d ∈ Direction.all, k = p.go d ∧ ∃ v, s.map.get_pointP k = some v ∧
      s.passable k v = true ∧ containsKey s.close k = false ∧
      c = s.action_cost p v := by
  unfold ActionFieldSolver.neighbors at h
  rw [List.mem_filterMap] at h
  obtain ⟨d, hd, hbody⟩ := h
  dsimp only at hbody
  cases hv : s.map.get_pointP (p.go d) with
  | none =>
    rw [hv] at hbody
    exact absurd hbody (by simp)
  | some v =>
    rw [hv] at hbody
    have hbody' : (if !(s.passable (p.go d) v) then none
        else if containsKey s.close (p.go d) then none
        else some (p.go d, s.action_cost p v)) = some (k, c) := hbody
    cases hpass : s.passable (p.go d) v with
    | false =>
      rw [hpass] at hbody'
      rw [if_pos (by simp)] at hbody'
      exact absurd hbody' (by simp)
    | true =>
      rw [hpass] at hbody'
      rw [if_neg (by simp)] at hbody'
      cases hcl : containsKey s.close (p.go d) with
      | true =>
        rw [hcl] at hbody'
        rw [if_pos (by simp)] at hbody'
        exact absurd hbody' (by simp)
      | false =>
        rw [hcl] at hbody'
        rw [if_neg (by simp)] at hbody'
        simp only [Option.some.injEq, Prod.mk.injEq] at hbody'
        obtain ⟨rfl, rfl⟩ := hbody'
        exact ⟨d, hd, rfl, v, hv, hpass, hcl, rfl⟩

/-- Modelled from the spec: the C3 reading of the cost callback contract —
"`cost(point, value)`: evaluated with the *neighbor's* coordinate and
stored value".  Identical to `ActionFieldSolver.neighbors` except that the
cost callback receives the neighbor's coordinate `key` instead of the
current point `p`. -/
def ActionFieldSolver.neighborsSpec (s : ActionFieldSolver C α) (p : Point) :
    List (Point × C) :=
  Direction.all.filterMap fun d =>
    let key := p.go d
    match s.map.get_pointP key with
    | none => none
    | some value =>
      if !(s.passable key value) then none
      else if containsKey s.close key then none
      else some (key, s.action_cost key value)

/-- A `2×1` store whose cells hold their own x-index, with a cost callback
returning the x-coordinate of its point argument: distinguishes which point
the callback receives. -/
def solverC3 : ActionFieldSolver ℤ ℕ :=
  (TaxicabMap.action_field
      { dense := ⟨2, 1, fun i _ => i⟩, cycle_x := false, cycle_y := false
        origin_x := 0, origin_y := 0 } (0, 0) 10).with_cost
    fun p _ => p.1

/-- C3 counterexample: expanding from `(0,0)`, the neighbor `(1,0)` is
recorded with cost `0` — the cost callback evaluated at the *current*
point's coordinate `(0,0)` — whereas evaluating it at the neighbor's
coordinate (the spec's claim, `neighborsSpec`) would give `1`. -/
theorem c3_counterexample :
    solverC3.neighbors (0, 0) = [((1, 0), 0)] ∧
    solverC3.neighborsSpec (0, 0) = [((1, 0), 1)] ∧
    solverC3.neighbors (0, 0) ≠ solverC3.neighborsSpec (0, 0) :=
  ⟨by decide, by decide, by decide⟩

/-- C3 amended: every edge recorded during expansion carries the cost
callback evaluated at the *current* point's coordinate and the neighbor's
stored value. -/
theorem c3_neighbors_args (s : ActionFieldSolver C α) (p k : Point) (c : C)
    (h : (k, c) ∈ s.neighbors p) :
    ∃ v, s.map.get_pointP k = some v ∧ s.passable k v = true ∧
      c = s.action_cost p v := by
  obtain ⟨d, -, -, v, hv, hpass, -, hc⟩ := neighbors_sound s p k c h
  exact ⟨v, hv, hpass, hc⟩

/-- Witness for C3 (amended) at `solverC3`'s single neighbor entry. -/
theorem c3_neighbors_args_witness :
    (((1 : ℤ), (0 : ℤ)), (0 : ℤ)) ∈ solverC3.neighbors (0, 0) ∧
    ∃ v, solverC3.map.get_pointP (1, 0) = some v ∧
      solverC3.passable (1, 0) v = true ∧
      (0 : ℤ) = solverC3.action_cost (0, 0) v :=
  ⟨by decide, c3_neighbors_args solverC3 (0, 0) (1, 0) 0 (by decide)⟩

/-- Spec concrete scenario 1: the `3×3` square with default callbacks,
solved from the center `(1,1)` with budget `0`. -/
def cfg4 : ActionFieldSolver ℤ ℕ :=
  (TaxicabMap.square 3 (0 : ℕ)).action_field (1, 1) 0

/-- C4 counterexample: with zero edge costs everywhere, budget `0` does not
prune anything (`0 > 0` is false), so the whole grid floods: the run
produces nine pairs, not the single pair `(0, (1,1))`. -/
theorem c4_counterexample :
    cfg4.solve 20 =
      some [(0, (0, 0)), (0, (0, 1)), (0, (0, 2)), (0, (1, 0)), (0, (1, 1)),
        (0, (1, 2)), (0, (2, 0)), (0, (2, 1)), (0, (2, 2))] ∧
    cfg4.solve 20 ≠ some [(0, (1, 1))] :=
  ⟨by decide, by decide⟩

/-- Once the loop finishes within some fuel, any larger fuel gives the same
result. -/
theorem solveLoop_mono :
    ∀ (f1 : ℕ) (s : ActionFieldSolver C α) (f2 : ℕ) (r : List (Point × C)),
      f1 ≤ f2 → s.solveLoop f1 = some r → s.solveLoop f2 = some r := by
  intro f1
  induction f1 with
  | zero =>
    intro s f2 r _ h
    exact absurd h (by simp [ActionFieldSolver.solveLoop])
  | succ f ih =>
    intro s f2 r hle h
    obtain ⟨f2', rfl⟩ : ∃ f2', f2 = f2' + 1 := ⟨f2 - 1, by omega⟩
    rw [ActionFieldSolver.solveLoop_succ] at h ⊢
    cases hop : s.opn with
    | nil => rw [hop] at h; exact h
    | cons e rest =>
      obtain ⟨p, c⟩ := e
      rw [hop] at h
      exact ih _ f2' r (by omega) h

/-- C4 amended: the scenario's result is exactly the pairs `(0.0, p)` for
all nine grid points `p` (cost `0` each), `(1,1)` included — not the center
alone. -/
theorem c4_flood (fuel : ℕ) (hfuel : 11 ≤ fuel) :
    cfg4.solve fuel =
      some [(0, (0, 0)), (0, (0, 1)), (0, (0, 2)), (0, (1, 0)), (0, (1, 1)),
        (0, (1, 2)), (0, (2, 0)), (0, (2, 1)), (0, (2, 2))] := by
  have h11 : cfg4.solveLoop 11 =
      some [((0, 0), 0), ((0, 1), 0), ((0, 2), 0), ((1, 0), 0), ((1, 1), 0),
        ((1, 2), 0), ((2, 0), 0), ((2, 1), 0), ((2, 2), 0)] := by decide
  unfold ActionFieldSolver.solve
  rw [solveLoop_mono 11 cfg4 fuel _ hfuel h11]
  decide

/-- Witness for C4 (amended) at fuel `11`. -/
theorem c4_flood_witness :
    11 ≤ 11 ∧
    cfg4.solve 11 =
      some [(0, (0, 0)), (0, (0, 1)), (0, (0, 2)), (0, (1, 0)), (0, (1, 1)),
        (0, (1, 2)), (0, (2, 0)), (0, (2, 1)), (0, (2, 2))] :=
  ⟨le_rfl, c4_flood 11 le_rfl⟩

theorem ptLt_irrefl (a : Point) : ¬ ptLt a a := by
  unfold ptLt; omega

theorem ptLt_trans {a b c : Point} (h1 : ptLt a b) (h2 : ptLt b c) :
    ptLt a c := by
  unfold ptLt at *; omega

theorem ptLt_of_not {a b : Point} (h : ¬ ptLt a b) (hne : a ≠ b) :
    ptLt b a := by
  rw [Ne, Prod.ext_iff] at hne
  unfold ptLt at *
  omega

theorem mem_insertSorted {l : List (Point × C)} {k : Point} {v : C}
    {e : Point × C} (h : e ∈ insertSorted l k v) : e = (k, v) ∨ e ∈ l := by
  induction l with
  | nil => simpa [insertSorted] using h
  | cons hd t ih =>
    unfold insertSorted at h
    by_cases h1 : ptLt k hd.1
    · rw [if_pos h1] at h
      exact List.mem_cons.mp h
    · rw [if_neg h1] at h
      by_cases h2 : k = hd.1
      · rw [if_pos h2] at h
        rcases List.mem_cons.mp h with he | he
        · exact Or.inl he
        · exact Or.inr (List.mem_cons_of_mem _ he)
      · rw [if_neg h2] at h
        rcases List.mem_cons.mp h with he | he
        · exact Or.inr (he ▸ List.mem_cons_self hd t)
        · rcases ih he with he' | he'
          · exact Or.inl he'
          · exact Or.inr (List.mem_cons_of_mem _ he')

theorem lookup_insertSorted_self (l : List (Point × C)) (k : Point) (v : C) :
    lookupKey (insertSorted l k v) k = some v := by
  induction l with
  | nil => simp [insertSorted, lookupKey]
  | cons hd t ih =>
    unfold insertSorted
    by_cases h1 : ptLt k hd.1
    · rw [if_pos h1]
      simp [lookupKey]
    · rw [if_neg h1]
      by_cases h2 : k = hd.1
      · rw [if_pos h2]
        simp [lookupKey]
      · rw [if_neg h2]
        unfold lookupKey
        rw [if_neg fun hc => h2 hc.symm]
        exact ih

theorem lookup_cons (e : Point × C) (t : List (Point × C)) (k : Point) :
    lookupKey (e :: t) k = if e.1 = k then some e.2 else lookupKey t k := rfl

theorem lookup_insertSorted_ne {l : List (Point × C)} {k k' : Point} {v : C}
    (h : k' ≠ k) :
    lookupKey (insertSorted l k v) k' = lookupKey l k' := by
  induction l with
  | nil =>
    show (if k = k' then some v else lookupKey [] k') = lookupKey [] k'
    rw [if_neg fun hc => h hc.symm]
  | cons hd t ih =>
    unfold insertSorted
    by_cases h1 : ptLt k hd.1
    · rw [if_pos h1]
      show (if k = k' then some v else lookupKey (hd :: t) k') =
        lookupKey (hd :: t) k'
      rw [if_neg fun hc => h hc.symm]
    · rw [if_neg h1]
      by_cases h2 : k = hd.1
      · rw [if_pos h2]
        show (if k = k' then some v else lookupKey t k') =
          lookupKey (hd :: t) k'
        rw [if_neg fun hc => h hc.symm, lookup_cons,
          if_neg fun hc => h (h2.trans hc).symm]
      · rw [if_neg h2]
        rw [lookup_cons, lookup_cons]
        by_cases h3 : hd.1 = k'
        · rw [if_pos h3, if_pos h3]
        · rw [if_neg h3, if_neg h3]
          exact ih

theorem contains_insertSorted {l : List (Point × C)} {k k' : Point}
    {v : C} :
    containsKey (insertSorted l k v) k' = true ↔
      k' = k ∨ containsKey l k' = true := by
  by_cases he : k' = k
  · subst he
    unfold containsKey
    rw [lookup_insertSorted_self]
    simp
  · unfold containsKey
    rw [lookup_insertSorted_ne he]
    simp [he]

theorem insertSorted_pairwise {l : List (Point × C)} {k : Point} {v : C}
    (h : l.Pairwise fun a b => ptLt a.1 b.1) :
    (insertSorted l k v).Pairwise fun a b => ptLt a.1 b.1 := by
  induction l with
  | nil => simp [insertSorted]
  | cons hd t ih =>
    rw [List.pairwise_cons] at h
    obtain ⟨hhd, ht⟩ := h
    unfold insertSorted
    by_cases h1 : ptLt k hd.1
    · rw [if_pos h1]
      rw [List.pairwise_cons]
      refine ⟨?_, List.pairwise_cons.mpr ⟨hhd, ht⟩⟩
      intro e he
      rcases List.mem_cons.mp he with rfl | he'
      · exact h1
      · exact ptLt_trans h1 (hhd e he')
    · rw [if_neg h1]
      by_cases h2 : k = hd.1
      · rw [if_pos h2]
        rw [List.pairwise_cons]
        exact ⟨fun e he => h2 ▸ hhd e he, ht⟩
      · rw [if_neg h2]
        rw [List.pairwise_cons]
        refine ⟨?_, ih ht⟩
        intro e he
        rcases mem_insertSorted he with rfl | he'
        · exact ptLt_of_not h1 h2
        · exact hhd e he'

theorem containsKey_iff {l : List (Point × C)} {k : Point} :
    containsKey l k = true ↔ ∃ v, (k, v) ∈ l := by
  induction l with
  | nil => simp [containsKey, lookupKey]
  | cons hd t ih =>
    unfold containsKey lookupKey
    by_cases heq : hd.1 = k
    · rw [if_pos heq]
      simp only [Option.isSome_some, true_iff]
      refine ⟨hd.2, ?_⟩
      rw [show ((k, hd.2) : Point × C) = hd from Prod.ext_iff.mpr ⟨heq.symm, rfl⟩]
      exact List.mem_cons_self hd t
    · rw [if_neg heq]
      rw [show (lookupKey t k).isSome = containsKey t k from rfl, ih]
      constructor
      · rintro ⟨v, hv⟩
        exact ⟨v, List.mem_cons_of_mem _ hv⟩
      · rintro ⟨v, hv⟩
        rcases List.mem_cons.mp hv with rfl | hv'
        · exact absurd rfl heq
        · exact ⟨v, hv'⟩

theorem lookup_eq_some_mem {l : List (Point × C)} {k : Point} {v : C}
    (h : lookupKey l k = some v) : (k, v) ∈ l := by
  induction l with
  | nil => simp [lookupKey] at h
  | cons hd t ih =>
    unfold lookupKey at h
    by_cases heq : hd.1 = k
    · rw [if_pos heq] at h
      simp only [Option.some.injEq] at h
      rw [show ((k, v) : Point × C) = hd from Prod.ext_iff.mpr ⟨heq.symm, h.symm⟩]
      exact List.mem_cons_self hd t
    · rw [if_neg heq] at h
      exact List.mem_cons_of_mem _ (ih h)

/-- `p.go d` always moves. -/
theorem go_ne (p : Point) (d : Direction) : p.go d ≠ p := by
  cases d with
  | X b => cases b <;> simp [Point.go, Prod.ext_iff]
  | Y b => cases b <;> simp [Point.go, Prod.ext_iff]

/-- Membership in the open set after one expansion's neighbor inserts. -/
theorem mem_updateFold {budget c : C} :
    ∀ (ns acc : List (Point × C)) (e : Point × C),
      e ∈ ns.foldl (fun acc x =>
          if budget < c + x.2 then acc
          else insertSorted acc x.1 (c + x.2)) acc →
      e ∈ acc ∨ ∃ x ∈ ns, e = (x.1, c + x.2) ∧ ¬ budget < c + x.2 := by
  intro ns
  induction ns with
  | nil => intro acc e h; exact Or.inl h
  | cons x t ih =>
    intro acc e h
    rw [List.foldl_cons] at h
    rcases ih _ e h with hacc | ⟨x', hx', he⟩
    · by_cases hg : budget < c + x.2
      · rw [if_pos hg] at hacc
        exact Or.inl hacc
      · rw [if_neg hg] at hacc
        rcases mem_insertSorted hacc with rfl | hacc'
        · exact Or.inr ⟨x, List.mem_cons_self x t, rfl, hg⟩
        · exact Or.inl hacc'
    · exact Or.inr ⟨x', List.mem_cons_of_mem _ hx', he⟩

/-- The open set stays strictly key-sorted through an expansion. -/
theorem pairwise_updateFold {budget c : C} :
    ∀ (ns acc : List (Point × C)),
      (acc.Pairwise fun a b => ptLt a.1 b.1) →
      ((ns.foldl (fun acc x =>
          if budget < c + x.2 then acc
          else insertSorted acc x.1 (c + x.2)) acc).Pairwise
        fun a b => ptLt a.1 b.1) := by
  intro ns
  induction ns with
  | nil => intro acc h; exact h
  | cons x t ih =>
    intro acc h
    rw [List.foldl_cons]
    refine ih _ ?_
    by_cases hg : budget < c + x.2
    · rw [if_pos hg]; exact h
    · rw [if_neg hg]; exact insertSorted_pairwise h

/-- The output sort is genuinely sorted ascending by cost. -/
theorem sortByCost_sorted (l : List (C × Point)) :
    List.Sorted (fun a b => a.1 ≤ b.1) (sortByCost l) := by
  haveI ht : IsTotal (C × Point) fun a b => a.1 ≤ b.1 :=
    ⟨fun a b => le_total a.1 b.1⟩
  haveI htr : IsTrans (C × Point) fun a b => a.1 ≤ b.1 :=
    ⟨fun a b c h1 h2 => le_trans h1 h2⟩
  exact List.sorted_insertionSort _ l

/-- The loop invariant behind C1: the start is pending at cost `0` or
already closed at cost `0`; every other recorded point is within budget,
exists on the map and is passable; open and closed sets never share a key;
the open set is strictly key-sorted. -/
def C1Inv (m : TaxicabMap α) (pass : Point → α → Bool) (budget : C)
    (start : Point) (opn close : List (Point × C)) : Prop :=
  ((close = [] ∧ opn = [(start, (0 : C))]) ∨
      lookupKey close start = some 0) ∧
  (∀ e ∈ opn, e.1 ≠ start →
    e.2 ≤ budget ∧ ∃ v, m.get_pointP e.1 = some v ∧ pass e.1 v = true) ∧
  (∀ e ∈ close, e.1 ≠ start →
    e.2 ≤ budget ∧ ∃ v, m.get_pointP e.1 = some v ∧ pass e.1 v = true) ∧
  (∀ k, containsKey opn k = true → containsKey close k = true → False) ∧
  opn.Pairwise fun a b => ptLt a.1 b.1

/-- `solveLoop` carries `C1Inv` to its final closed set. -/
theorem solveLoop_c1 (m : TaxicabMap α) (pass : Point → α → Bool)
    (costF : Point → α → C) (budget : C) (start : Point) :
    ∀ (fuel : ℕ) (opn close res : List (Point × C)),
      ActionFieldSolver.solveLoop
        ⟨m, opn, close, pass, costF, budget⟩ fuel = some res →
      C1Inv m pass budget start opn close →
      lookupKey res start = some (0 : C) ∧
      ∀ e ∈ res, e.1 ≠ start →
        e.2 ≤ budget ∧ ∃ v, m.get_pointP e.1 = some v ∧ pass e.1 v = true := by
  intro fuel
  induction fuel with
  | zero =>
    intro opn close res h _
    exact absurd h (by simp [ActionFieldSolver.solveLoop])
  | succ f ih =>
    intro opn close res h hinv
    obtain ⟨hA, hBopen, hBclose, hDisj, hPw⟩ := hinv
    cases hop : opn with
    | nil =>
      subst hop
      have h' : some close = some res := h
      simp only [Option.some.injEq] at h'
      subst h'
      refine ⟨?_, hBclose⟩
      rcases hA with ⟨-, hoe⟩ | hA
      · exact absurd hoe (by simp)
      · exact hA
    | cons e rest =>
      obtain ⟨p, c⟩ := e
      subst hop
      have h' : ActionFieldSolver.solveLoop
          { map := m
            opn := (ActionFieldSolver.neighbors
                ⟨m, (p, c) :: rest, close, pass, costF, budget⟩ p).foldl
              (fun acc e =>
                if budget < c + e.2 then acc
                else insertSorted acc e.1 (c + e.2)) rest
            close := insertSorted close p c
            passable := pass, action_cost := costF
            action_points := budget } f = some res := h
      set s0 : ActionFieldSolver C α :=
        ⟨m, (p, c) :: rest, close, pass, costF, budget⟩ with hs0
      rw [List.pairwise_cons] at hPw
      obtain ⟨hPwHead, hPwTail⟩ := hPw
      have hopen_p : containsKey ((p, c) :: rest) p = true := by
        unfold containsKey lookupKey
        rw [if_pos rfl]
        rfl
      refine ih _ _ res h' ⟨?_, ?_, ?_, ?_, ?_⟩
      · -- start pending or closed at 0
        rcases hA with ⟨hc0, hoe⟩ | hA
        · right
          simp only [List.cons.injEq, Prod.mk.injEq] at hoe
          obtain ⟨⟨rfl, rfl⟩, rfl⟩ := hoe
          subst hc0
          rw [lookup_insertSorted_self]
        · right
          have hps : p ≠ start := by
            intro hps
            subst hps
            refine hDisj p hopen_p ?_
            unfold containsKey
            rw [hA]
            rfl
          rw [lookup_insertSorted_ne (Ne.symm hps)]
          exact hA
      · -- open-set entries within budget / passable / existing
        intro e he hne
        rcases mem_updateFold _ _ e he with hrest | ⟨x, hx, rfl, hguard⟩
        · exact hBopen e (List.mem_cons_of_mem _ hrest) hne
        · obtain ⟨k', nc⟩ := x
          obtain ⟨d, -, -, v, hv, hpassk, -, -⟩ :=
            neighbors_sound s0 p k' nc hx
          exact ⟨le_of_not_lt hguard, v, hv, hpassk⟩
      · -- closed-set entries within budget / passable / existing
        intro e he hne
        rcases mem_insertSorted he with rfl | he'
        · exact hBopen (p, c) (List.mem_cons_self _ _) hne
        · exact hBclose e he' hne
      · -- open and closed stay disjoint
        intro k hko hkc
        rcases contains_insertSorted.mp hkc with hkp | hkc'
        · subst hkp
          obtain ⟨v, hv⟩ := containsKey_iff.mp hko
          rcases mem_updateFold _ _ (k, v) hv with hrest | ⟨x, hx, hxe, -⟩
          · exact ptLt_irrefl k (hPwHead (k, v) hrest)
          · obtain ⟨k', nc⟩ := x
            simp only [Prod.mk.injEq] at hxe
            obtain ⟨hkk, -⟩ := hxe
            subst hkk
            obtain ⟨d, -, hkgo, -⟩ := neighbors_sound s0 k k nc hx
            exact go_ne k d hkgo.symm
        · obtain ⟨v, hv⟩ := containsKey_iff.mp hko
          rcases mem_updateFold _ _ (k, v) hv with hrest | ⟨x, hx, hxe, -⟩
          · refine hDisj k ?_ hkc'
            exact containsKey_iff.mpr ⟨v, List.mem_cons_of_mem _ hrest⟩
          · obtain ⟨k', nc⟩ := x
            simp only [Prod.mk.injEq] at hxe
            obtain ⟨hkk, -⟩ := hxe
            subst hkk
            obtain ⟨d, -, -, v', -, -, hncl, -⟩ :=
              neighbors_sound s0 p k nc hx
            rw [hncl] at hkc'
            exact absurd hkc' (by simp)
      · -- open set stays strictly key-sorted
        exact pairwise_updateFold _ _ hPwTail

/-- C1 counterexample: on a `1×1` store with a passability callback that
rejects everything and budget `-1`, the solver still emits the start at
cost `0`: the start is never passability-checked and its cost `0` exceeds
the budget `-1`. -/
theorem c1_counterexample :
    ((((TaxicabMap.rectangle 1 1 (0 : ℕ)).action_field
          ((0, 0) : Point) (-1 : ℤ)).with_passable
        fun _ _ => false).solve 3 = some [((0 : ℤ), ((0 : ℤ), (0 : ℤ)))]) ∧
    ¬ ((0 : ℤ) ≤ -1) ∧
    ((fun (_ : Point) (_ : ℕ) => false) ((0 : ℤ), (0 : ℤ)) 0) = false :=
  ⟨by decide, by decide, rfl⟩

/-- C1 amended: for every well-formed map, start, budget and callbacks,
whenever `solve` finishes, the start appears in the output with cost `0`;
every *other* output pair is within budget, refers to an existing cell and
passes the passability callback; and the output is sorted ascending by
cost.  (The start itself is exempt: the code never passability-checks it
and always emits it at cost `0`, even over budget.) -/
theorem c1_solver_output (m : TaxicabMap α) (pass : Point → α → Bool)
    (costF : Point → α → C) (budget : C) (start : Point) (fuel : ℕ)
    (out : List (C × Point)) (hwf : WellFormed m)
    (hrun : (((m.action_field start budget).with_passable pass).with_cost
        costF).solve fuel = some out) :
    ((0 : C), start) ∈ out ∧
    (∀ e ∈ out, e.2 ≠ start →
      e.1 ≤ budget ∧ ∃ v, m.get_pointP e.2 = some v ∧ pass e.2 v = true) ∧
    List.Sorted (fun a b => a.1 ≤ b.1) out := by
  unfold ActionFieldSolver.solve at hrun
  cases hl : ActionFieldSolver.solveLoop
      (((m.action_field start budget).with_passable pass).with_cost costF)
      fuel with
  | none => rw [hl] at hrun; exact absurd hrun (by simp)
  | some res =>
    rw [hl] at hrun
    simp only [Option.map_some', Option.some.injEq] at hrun
    subst hrun
    have hl' : ActionFieldSolver.solveLoop
        ⟨m, [(start, (0 : C))], [], pass, costF, budget⟩ fuel = some res :=
      hl
    have hres := solveLoop_c1 m pass costF budget start fuel
      [(start, (0 : C))] [] res hl'
      ⟨Or.inl ⟨rfl, rfl⟩,
        by
          intro e he hne
          simp only [List.mem_singleton] at he
          subst he
          exact absurd rfl hne,
        by intro e he; exact absurd he (List.not_mem_nil e),
        by intro k hko hkc; exact absurd hkc (by simp [containsKey, lookupKey]),
        List.pairwise_singleton _ _⟩
    obtain ⟨hstart, hrest⟩ := hres
    have hperm : List.Perm (sortByCost (res.map fun e => (e.2, e.1)))
        (res.map fun e => (e.2, e.1)) := List.perm_insertionSort _ _
    refine ⟨?_, ?_, sortByCost_sorted _⟩
    · refine hperm.mem_iff.mpr ?_
      exact List.mem_map.mpr ⟨(start, 0), lookup_eq_some_mem hstart, rfl⟩
    · intro e he hne
      have he' := hperm.mem_iff.mp he
      obtain ⟨a, ha, hae⟩ := List.mem_map.mp he'
      obtain ⟨k', c'⟩ := a
      simp only at hae
      subst hae
      exact hrest (k', c') ha hne

/-- A rectangle store never wraps, so it is well-formed. -/
theorem wellFormed_rectangle (w h : ℕ) (fill : α) :
    WellFormed (TaxicabMap.rectangle w h fill) :=
  ⟨fun hc => Bool.noConfusion hc, fun hc => Bool.noConfusion hc⟩

/-- Witness for C1 (amended): a `1×1` store, default-like callbacks, budget
`0`, start `(0,0)`, fuel `3`. -/
theorem c1_solver_output_witness :
    WellFormed (TaxicabMap.rectangle 1 1 (0 : ℕ)) ∧
    ((((TaxicabMap.rectangle 1 1 (0 : ℕ)).action_field
          ((0, 0) : Point) (0 : ℤ)).with_passable
        fun _ _ => true).with_cost fun _ _ => 0).solve 3 =
      some [((0 : ℤ), ((0 : ℤ), (0 : ℤ)))] ∧
    (((0 : ℤ), (((0 : ℤ), (0 : ℤ)) : Point)) ∈
        [((0 : ℤ), ((0 : ℤ), (0 : ℤ)))] ∧
      (∀ e ∈ [((0 : ℤ), (((0 : ℤ), (0 : ℤ)) : Point))],
        e.2 ≠ ((0, 0) : Point) →
        e.1 ≤ (0 : ℤ) ∧ ∃ v, (TaxicabMap.rectangle 1 1 (0 : ℕ)).get_pointP
            e.2 = some v ∧ (fun (_ : Point) (_ : ℕ) => true) e.2 v = true) ∧
      List.Sorted (fun a b => a.1 ≤ b.1)
        [((0 : ℤ), (((0 : ℤ), (0 : ℤ)) : Point))]) :=
  ⟨wellFormed_rectangle 1 1 0, by decide,
    c1_solver_output (TaxicabMap.rectangle 1 1 (0 : ℕ))
      (fun _ _ => true) (fun _ _ => 0) 0 (0, 0) 3 _
      (wellFormed_rectangle 1 1 0) (by decide)⟩

/-- A `1×1` store with `wrap_x` enabled: every `(z, 0)` is a point. -/
def mapT : TaxicabMap ℕ :=
  { dense := ⟨1, 1, fun _ _ => 0⟩, cycle_x := true, cycle_y := false
    origin_x := 0, origin_y := 0 }

/-- The solver of C2's counterexample: `mapT`, start `(0,0)`, budget `0`,
default callbacks. -/
def solverT : ActionFieldSolver ℤ ℕ := mapT.action_field (0, 0) 0

/-- Closed set of the diverging run after `n` iterations:
`(0,0), (-1,0), …, (-(n-1),0)`, all at cost `0`, ascending. -/
def closeT : ℕ → List (Point × ℤ)
  | 0 => []
  | n + 1 => ((-(n : ℤ), 0), 0) :: closeT n

/-- Open set of the diverging run after `n ≥ 1` iterations. -/
def openT (n : ℕ) : List (Point × ℤ) :=
  [((-(n : ℤ), 0), 0), ((1, 0), 0)]

/-- The diverging run's solver state after `n ≥ 1` iterations. -/
def stateT (n : ℕ) : ActionFieldSolver ℤ ℕ :=
  ⟨mapT, openT n, closeT n, fun _ _ => true, fun _ _ => 0, 0⟩

/-- Every point of the wrapped row `y = 0` exists on `mapT`. -/
theorem mapT_get0 (z : ℤ) : mapT.get_pointP (z, 0) = some 0 := by
  have ha : absolute_to_relative z 0 0 0 1 1 true false = some (0, 0) := by
    show (match axisIndex true (z - 0) 1 with
          | none => none
          | some x1 =>
            match axisIndex false ((0 : ℤ) - 0) 1 with
            | none => none
            | some y1 => some (x1.toNat, y1.toNat)) = some (0, 0)
    rw [axisIndex_true, emod_one]
    rfl
  show (match absolute_to_relative z 0 0 0 1 1 true false with
        | none => none
        | some (i, j) => mapT.dense.get i j) = some 0
  rw [ha]
  rfl

/-- No point off the row `y = 0` exists on `mapT`. -/
theorem mapT_getbad (z w : ℤ) (hw : w ≠ 0) :
    mapT.get_pointP (z, w) = none := by
  have ha : absolute_to_relative z w 0 0 1 1 true false = none := by
    show (match axisIndex true (z - 0) 1 with
          | none => none
          | some x1 =>
            match axisIndex false (w - 0) 1 with
            | none => none
            | some y1 => some (x1.toNat, y1.toNat)) = none
    have hy : axisIndex false (w - 0) 1 = none := by
      unfold axisIndex
      rw [if_neg (by simp), if_pos (by omega)]
    rw [axisIndex_true, emod_one, hy]
  show (match absolute_to_relative z w 0 0 1 1 true false with
        | none => none
        | some (i, j) => mapT.dense.get i j) = none
  rw [ha]

/-- Keys strictly left of `-(n-1)` (or off the row) are never in
`closeT n`. -/
theorem closeT_not_contains (z w : ℤ) :
    ∀ n : ℕ, (z < -(n : ℤ) + 1 ∨ w ≠ 0) →
      containsKey (closeT n) (z, w) = false := by
  intro n
  induction n with
  | zero => intro _; rfl
  | succ n ih =>
    intro hz
    show containsKey (((-(n : ℤ), 0), 0) :: closeT n) (z, w) = false
    unfold containsKey
    rw [lookup_cons, if_neg ?hne]
    case hne =>
      intro hc
      rw [Prod.ext_iff] at hc
      push_cast at hz
      obtain ⟨h1, h2⟩ := hc
      dsimp only at h1 h2
      omega
    exact ih (by push_cast at hz ⊢; omega)

/-- The head of `closeT (m+1)` is `(-m, 0)`, so it is contained. -/
theorem closeT_contains_head (m : ℕ) :
    containsKey (closeT (m + 1)) (-(m : ℤ), 0) = true := by
  show containsKey (((-(m : ℤ), 0), 0) :: closeT m) (-(m : ℤ), 0) = true
  unfold containsKey
  rw [lookup_cons, if_pos rfl]
  rfl

/-- The neighbor scan of the diverging run's `n+1`-st iteration: only the
fresh point one step further left survives (right neighbor is closed,
off-row neighbors do not exist). -/
theorem stateT_neighbors (m : ℕ) :
    (stateT (m + 1)).neighbors (-((m : ℤ) + 1), 0) =
      [((-((m : ℤ) + 1) - 1, 0), 0)] := by
  have hE : mapT.get_pointP (-((m : ℤ) + 1) + 1, 0) = some 0 := mapT_get0 _
  have hW : mapT.get_pointP (-((m : ℤ) + 1) - 1, 0) = some 0 := mapT_get0 _
  have hN : mapT.get_pointP (-((m : ℤ) + 1), 0 + 1) = none :=
    mapT_getbad _ _ (by omega)
  have hS : mapT.get_pointP (-((m : ℤ) + 1), 0 - 1) = none :=
    mapT_getbad _ _ (by omega)
  have hclE : containsKey (closeT (m + 1)) (-((m : ℤ) + 1) + 1, 0) = true := by
    rw [show (-((m : ℤ) + 1) + 1) = -(m : ℤ) from by ring]
    exact closeT_contains_head m
  have hclW : containsKey (closeT (m + 1)) (-((m : ℤ) + 1) - 1, 0) = false :=
    closeT_not_contains _ _ (m + 1) (by push_cast; omega)
  unfold ActionFieldSolver.neighbors Direction.all stateT
  simp only [List.filterMap_cons, List.filterMap_nil]
  dsimp only [Point.go]
  rw [hE, hW, hN, hS, hclE, hclW]
  simp

/-- One iteration of the diverging run advances `stateT (m+1)` to
`stateT (m+2)`. -/
theorem stateT_step (m fuel : ℕ) :
    (stateT (m + 1)).solveLoop (fuel + 1) = (stateT (m + 2)).solveLoop fuel := by
  have hns : (stateT (m + 1)).neighbors (-((m + 1 : ℕ) : ℤ), 0) =
      [((-((m + 1 : ℕ) : ℤ) - 1, 0), 0)] := by
    have := stateT_neighbors m
    rw [show -((m : ℤ) + 1) = -((m + 1 : ℕ) : ℤ) from by push_cast; ring] at this
    exact this
  have hstep : (stateT (m + 1)).solveLoop (fuel + 1) =
      ActionFieldSolver.solveLoop
        { stateT (m + 1) with
          opn := ((stateT (m + 1)).neighbors (-((m + 1 : ℕ) : ℤ), 0)).foldl
            (fun acc e =>
              if (0 : ℤ) < 0 + e.2 then acc
              else insertSorted acc e.1 (0 + e.2)) [((1, 0), 0)]
          close := insertSorted (closeT (m + 1)) (-((m + 1 : ℕ) : ℤ), 0) 0 }
        fuel := rfl
  rw [hstep, hns, List.foldl_cons, List.foldl_nil,
    if_neg (by norm_num : ¬ (0 : ℤ) < 0 + 0)]
  have hins : insertSorted [(((1 : ℤ), (0 : ℤ)), (0 : ℤ))]
      (-((m + 1 : ℕ) : ℤ) - 1, 0) (0 + 0) =
      [((-((m + 2 : ℕ) : ℤ), 0), 0), ((1, 0), 0)] := by
    unfold insertSorted
    rw [if_pos (by unfold ptLt; push_cast; omega)]
    rw [show (-((m + 1 : ℕ) : ℤ) - 1) = -((m + 2 : ℕ) : ℤ) from by push_cast; ring]
    norm_num
  have hcl : insertSorted (closeT (m + 1)) (-((m + 1 : ℕ) : ℤ), 0) 0 =
      closeT (m + 2) := by
    show insertSorted (((-(m : ℤ), 0), 0) :: closeT m) (-((m + 1 : ℕ) : ℤ), 0) 0 =
      ((-((m + 1 : ℕ) : ℤ), 0), 0) :: closeT (m + 1)
    unfold insertSorted
    rw [if_pos (by unfold ptLt; push_cast; omega)]
    rfl
  rw [hins, hcl]
  rfl

/-- The very first iteration of the diverging run reaches `stateT 1`. -/
theorem solverT_first_step (fuel : ℕ) :
    solverT.solveLoop (fuel + 1) = (stateT 1).solveLoop fuel := rfl

/-- C2 counterexample: on the wrapped `1×1` store with zero costs and
budget `0`, the solver's open set never empties — no amount of fuel makes
`solve` finish. -/
theorem c2_counterexample :
    (∀ fuel, solverT.solveLoop fuel = none) ∧
    ¬ ∃ fuel out, solverT.solve fuel = some out := by
  have hdiv : ∀ (fuel m : ℕ), (stateT (m + 1)).solveLoop fuel = none := by
    intro fuel
    induction fuel with
    | zero => intro m; rfl
    | succ f ih =>
      intro m
      rw [stateT_step m f]
      exact ih (m + 1)
  have hloop : ∀ fuel, solverT.solveLoop fuel = none := by
    intro fuel
    cases fuel with
    | zero => rfl
    | succ f =>
      rw [solverT_first_step f]
      exact hdiv f 0
  refine ⟨hloop, ?_⟩
  rintro ⟨fuel, out, hout⟩
  unfold ActionFieldSolver.solve at hout
  rw [hloop fuel] at hout
  exact absurd hout (by simp)

/-- A successful non-wrapping per-axis step implies the offset was in
range. -/
theorem axisIndex_false_some {v e r : ℤ} (h : axisIndex false v e = some r) :
    0 ≤ v ∧ v < e := by
  unfold axisIndex at h
  rw [if_neg (by simp)] at h
  split at h
  · exact absurd h (by simp)
  · rename_i hc
    push_neg at hc
    exact ⟨hc.1, hc.2⟩

/-- The finite point universe a no-wrap run can ever enqueue: the map's
rectangle of absolute coordinates plus the start. -/
def solverUniverse (m : TaxicabMap α) (start : Point) : Finset Point :=
  insert start
    (Finset.Icc m.origin_x (m.origin_x + (m.dense.w : ℤ) - 1) ×ˢ
      Finset.Icc m.origin_y (m.origin_y + (m.dense.h : ℤ) - 1))

/-- On a no-wrap map, every existing point lies in the universe. -/
theorem get_pointP_mem_universe (m : TaxicabMap α) (start k : Point) (v : α)
    (hcx : m.cycle_x = false) (hcy : m.cycle_y = false)
    (h : m.get_pointP k = some v) : k ∈ solverUniverse m start := by
  unfold TaxicabMap.get_pointP TaxicabMap.get_point at h
  cases ha : m.a2r k.1 k.2 with
  | none => rw [ha] at h; exact absurd h (by simp)
  | some ij =>
    unfold TaxicabMap.a2r absolute_to_relative at ha
    rw [hcx, hcy] at ha
    cases hx : axisIndex false (k.1 - m.origin_x) (m.dense.w : ℤ) with
    | none => rw [hx] at ha; exact absurd ha (by simp)
    | some x1 =>
      rw [hx] at ha
      cases hy : axisIndex false (k.2 - m.origin_y) (m.dense.h : ℤ) with
      | none => rw [hy] at ha; exact absurd ha (by simp)
      | some y1 =>
        obtain ⟨hx0, hx1⟩ := axisIndex_false_some hx
        obtain ⟨hy0, hy1⟩ := axisIndex_false_some hy
        unfold solverUniverse
        refine Finset.mem_insert.mpr (Or.inr ?_)
        rw [Finset.mem_product, Finset.mem_Icc, Finset.mem_Icc]
        refine ⟨⟨by omega, by omega⟩, by omega, by omega⟩

/-- `insertSorted` adds exactly one key to the key set. -/
theorem keys_insertSorted_toFinset (l : List (Point × C)) (k : Point)
    (v : C) :
    ((insertSorted l k v).map Prod.fst).toFinset =
      insert k (l.map Prod.fst).toFinset := by
  induction l with
  | nil => simp [insertSorted]
  | cons hd t ih =>
    unfold insertSorted
    by_cases h1 : ptLt k hd.1
    · rw [if_pos h1]
      simp [List.toFinset_cons]
    · rw [if_neg h1]
      by_cases h2 : k = hd.1
      · rw [if_pos h2]
        simp [List.toFinset_cons, h2, Finset.insert_idem]
      · rw [if_neg h2]
        simp only [List.map_cons, List.toFinset_cons, ih]
        rw [Finset.Insert.comm]

/-- Key containment matches key-set membership. -/
theorem containsKey_toFinset {l : List (Point × C)} {k : Point} :
    containsKey l k = true ↔ k ∈ (l.map Prod.fst).toFinset := by
  rw [containsKey_iff, List.mem_toFinset, List.mem_map]
  constructor
  · rintro ⟨v, hv⟩
    exact ⟨(k, v), hv, rfl⟩
  · rintro ⟨e, he, rfl⟩
    exact ⟨e.2, he⟩

/-- On a no-wrap map, the loop always empties its open set within
`|universe \ closed keys|` further iterations. -/
theorem solveLoop_halts (m : TaxicabMap α) (pass : Point → α → Bool)
    (costF : Point → α → C) (budget : C) (start : Point)
    (hcx : m.cycle_x = false) (hcy : m.cycle_y = false) :
    ∀ (fuel : ℕ) (opn close : List (Point × C)),
      (∀ e ∈ opn, e.1 ∈ solverUniverse m start) →
      (∀ k, containsKey opn k = true → containsKey close k = true → False) →
      (opn.Pairwise fun a b => ptLt a.1 b.1) →
      (solverUniverse m start \ (close.map Prod.fst).toFinset).card < fuel →
      ∃ res, ActionFieldSolver.solveLoop
        ⟨m, opn, close, pass, costF, budget⟩ fuel = some res := by
  intro fuel
  induction fuel with
  | zero =>
    intro opn close _ _ _ hcard
    omega
  | succ f ih =>
    intro opn close hU hDisj hPw hcard
    cases opn with
    | nil => exact ⟨close, rfl⟩
    | cons e rest =>
      obtain ⟨p, c⟩ := e
      rw [List.pairwise_cons] at hPw
      obtain ⟨hPwHead, hPwTail⟩ := hPw
      have hopen_p : containsKey ((p, c) :: rest) p = true := by
        unfold containsKey lookupKey
        rw [if_pos rfl]
        rfl
      have hpU : p ∈ solverUniverse m start :=
        hU (p, c) (List.mem_cons_self _ _)
      have hpnc : p ∉ (close.map Prod.fst).toFinset := fun hmem =>
        hDisj p hopen_p (containsKey_toFinset.mpr hmem)
      have hU' : ∀ e ∈ (ActionFieldSolver.neighbors
            ⟨m, (p, c) :: rest, close, pass, costF, budget⟩ p).foldl
          (fun acc e =>
            if budget < c + e.2 then acc
            else insertSorted acc e.1 (c + e.2)) rest,
          e.1 ∈ solverUniverse m start := by
        intro e he
        rcases mem_updateFold _ _ e he with hrest | ⟨x, hx, rfl, -⟩
        · exact hU e (List.mem_cons_of_mem _ hrest)
        · obtain ⟨k', nc⟩ := x
          obtain ⟨d, -, -, v, hv, -, -, -⟩ :=
            neighbors_sound ⟨m, (p, c) :: rest, close, pass, costF, budget⟩
              p k' nc hx
          exact get_pointP_mem_universe m start k' v hcx hcy hv
      have hDisj' : ∀ k, containsKey ((ActionFieldSolver.neighbors
            ⟨m, (p, c) :: rest, close, pass, costF, budget⟩ p).foldl
          (fun acc e =>
            if budget < c + e.2 then acc
            else insertSorted acc e.1 (c + e.2)) rest) k = true →
          containsKey (insertSorted close p c) k = true → False := by
        intro k hko hkc
        rcases contains_insertSorted.mp hkc with hkp | hkc'
        · subst hkp
          obtain ⟨v, hv⟩ := containsKey_iff.mp hko
          rcases mem_updateFold _ _ (k, v) hv with hrest | ⟨x, hx, hxe, -⟩
          · exact ptLt_irrefl k (hPwHead (k, v) hrest)
          · obtain ⟨k', nc⟩ := x
            simp only [Prod.mk.injEq] at hxe
            obtain ⟨hkk, -⟩ := hxe
            subst hkk
            obtain ⟨d, -, hkgo, -⟩ :=
              neighbors_sound ⟨m, (k, c) :: rest, close, pass, costF, budget⟩
                k k nc hx
            exact go_ne k d hkgo.symm
        · obtain ⟨v, hv⟩ := containsKey_iff.mp hko
          rcases mem_updateFold _ _ (k, v) hv with hrest | ⟨x, hx, hxe, -⟩
          · refine hDisj k ?_ hkc'
            exact containsKey_iff.mpr ⟨v, List.mem_cons_of_mem _ hrest⟩
          · obtain ⟨k', nc⟩ := x
            simp only [Prod.mk.injEq] at hxe
            obtain ⟨hkk, -⟩ := hxe
            subst hkk
            obtain ⟨d, -, -, v', -, -, hncl, -⟩ :=
              neighbors_sound ⟨m, (p, c) :: rest, close, pass, costF, budget⟩
                p k nc hx
            rw [hncl] at hkc'
            exact absurd hkc' (by simp)
      have hPw' : ((ActionFieldSolver.neighbors
            ⟨m, (p, c) :: rest, close, pass, costF, budget⟩ p).foldl
          (fun acc e =>
            if budget < c + e.2 then acc
            else insertSorted acc e.1 (c + e.2)) rest).Pairwise
          fun a b => ptLt a.1 b.1 := pairwise_updateFold _ _ hPwTail
      have hcard' : (solverUniverse m start \
          ((insertSorted close p c).map Prod.fst).toFinset).card < f := by
        rw [keys_insertSorted_toFinset]
        have hsd : solverUniverse m start \
            insert p (close.map Prod.fst).toFinset =
            (solverUniverse m start \ (close.map Prod.fst).toFinset).erase
              p := by
          ext x
          simp only [Finset.mem_sdiff, Finset.mem_insert, Finset.mem_erase]
          tauto
        rw [hsd]
        have hpin : p ∈ solverUniverse m start \
            (close.map Prod.fst).toFinset :=
          Finset.mem_sdiff.mpr ⟨hpU, hpnc⟩
        rw [Finset.card_erase_of_mem hpin]
        have hpos : 0 < (solverUniverse m start \
            (close.map Prod.fst).toFinset).card :=
          Finset.card_pos.mpr ⟨p, hpin⟩
        omega
      obtain ⟨res, hres⟩ := ih _ _ hU' hDisj' hPw' hcard'
      exact ⟨res, hres⟩

/-- C2 amended: on every map with wrap disabled on both axes, for every
start, budget and callbacks, the solver terminates: some finite fuel makes
the main loop empty its open set and return. -/
theorem c2_termination (m : TaxicabMap α) (pass : Point → α → Bool)
    (costF : Point → α → C) (budget : C) (start : Point)
    (hcx : m.cycle_x = false) (hcy : m.cycle_y = false) :
    ∃ fuel out,
      (((m.action_field start budget).with_passable pass).with_cost
        costF).solve fuel = some out := by
  obtain ⟨res, hres⟩ := solveLoop_halts m pass costF budget start hcx hcy
    ((solverUniverse m start).card + 1) [(start, 0)] []
    (by
      intro e he
      simp only [List.mem_singleton] at he
      subst he
      exact Finset.mem_insert_self _ _)
    (by intro k _ hkc; exact absurd hkc (by simp [containsKey, lookupKey]))
    (List.pairwise_singleton _ _)
    (by
      simp only [List.map_nil, List.toFinset_nil, Finset.sdiff_empty]
      omega)
  refine ⟨(solverUniverse m start).card + 1,
    sortByCost (res.map fun e => (e.2, e.1)), ?_⟩
  unfold ActionFieldSolver.solve
  have hres' : ActionFieldSolver.solveLoop
      (((m.action_field start budget).with_passable pass).with_cost costF)
      ((solverUniverse m start).card + 1) = some res := hres
  rw [hres']
  rfl

/-- Witness for C2 (amended): the `1×1` no-wrap store with default
callbacks terminates from `(0,0)` with budget `0`. -/
theorem c2_termination_witness :
    (TaxicabMap.rectangle 1 1 (0 : ℕ)).cycle_x = false ∧
    (TaxicabMap.rectangle 1 1 (0 : ℕ)).cycle_y = false ∧
    ∃ fuel out,
      ((((TaxicabMap.rectangle 1 1 (0 : ℕ)).action_field
            ((0, 0) : Point) (0 : ℤ)).with_passable
          fun _ _ => true).with_cost fun _ _ => 0).solve fuel = some out :=
  ⟨rfl, rfl,
    c2_termination (TaxicabMap.rectangle 1 1 (0 : ℕ)) (fun _ _ => true)
      (fun _ _ => 0) 0 (0, 0) rfl rfl⟩

end Solver

end TaxicabSpec
